import Mathlib

/-!
Verification of the 10-K sectioning/chunking/embedding pipeline of the
`balance-sheets-backend` repository, as implemented in
`process_10k_improved.py` and `generate_embeddings.py`.

The Python code is shallowly embedded as executable Lean definitions:

* Python `str` is Lean `String` (a wrapper around `List Char`); `len` on a
  string is the number of code points, i.e. `String.length`.
* Python `str.split()` (no separator: split on runs of whitespace, dropping
  empty pieces) is `pySplit`; `str.split(sep)` is `pySplitSep`;
  `' '.join(xs)` is `pyJoin " " xs`.
* `int(current_word_count * 0.15)` with the IEEE-754 double `0.15`: for every
  word count `c` arising here (far below `10^12`) the double computation
  `int(c * 0.15)` agrees with exact arithmetic `⌊3 * c / 20⌋`, because
  `c * 0.15` differs from the rational `3c/20` by less than `10^-3` while
  `3c/20` is either an integer or at least `1/20` away from one.  It is
  therefore embedded as `3 * c / 20` in `Nat`.
* NLTK's `sent_tokenize` is an external library call; it is modelled as an
  explicit function argument `tokenize : String → Except String (List String)`
  (`Except.error` models the tokenizer raising, which `create_chunks` catches).
* The `re` library calls inside `extract_sections` are likewise modelled as
  function arguments (`finditer` returning the list of match start offsets in
  scan order, `searchEnd` returning the offset of the first end-marker match),
  while the small fixed regexes of `clean_section_text` and `extract_metadata`
  are implemented directly, character by character.
* Python's stable `list.sort(key=...)` is modelled with Mathlib's stable
  `List.insertionSort` (identical input/output behaviour: both produce the
  unique stable ascending reordering).
-/

/-! ## Python string primitives -/

/-- Python `str.split()` on a character list: split on maximal runs of
whitespace, dropping empty pieces.  `acc` holds the (reversed) current word. -/
def pySplitAux : List Char → List Char → List (List Char)
  | [], acc => if acc.isEmpty then [] else [acc.reverse]
  | c :: cs, acc =>
    if c.isWhitespace then
      if acc.isEmpty then pySplitAux cs []
      else acc.reverse :: pySplitAux cs []
    else pySplitAux cs (c :: acc)

/-- Python `str.split()` (whitespace splitting, empty pieces dropped). -/
def pySplit (s : String) : List String :=
  (pySplitAux s.data []).map String.mk

/-- Python `sep.join(xs)`: concatenate with `sep` between elements. -/
def pyJoin (sep : String) : List String → String
  | [] => ""
  | [w] => w
  | w :: ws => w ++ sep ++ pyJoin sep ws

/-- Python `str.split(sep)` for a non-empty separator, on character lists:
cut at each non-overlapping occurrence of `sep`, scanning left to right,
keeping empty pieces.  `n0 :: ntail` is the separator.  The second argument is
the number of already-matched separator characters left to consume (a skip
counter, used instead of `List.drop` so the recursion is structural and the
function computes inside the kernel). -/
def pySplitSepAux (n0 : Char) (ntail : List Char) : List Char → Nat → List (List Char)
  | [], _ => [[]]
  | _ :: rest, k + 1 => pySplitSepAux n0 ntail rest k
  | c :: rest, 0 =>
    if (n0 :: ntail).isPrefixOf (c :: rest) then
      [] :: pySplitSepAux n0 ntail rest ntail.length
    else
      match pySplitSepAux n0 ntail rest 0 with
      | [] => [[c]]
      | p :: ps => (c :: p) :: ps

/-- Python `str.split(sep)`. The `sep = ""` case raises in Python and is not
used by the code under verification; it is mapped to `[s]` here. -/
def pySplitSep (sep : String) (s : String) : List String :=
  match sep.data with
  | [] => [s]
  | c :: cs => (pySplitSepAux c cs s.data 0).map String.mk

/-- Python `str.lower()` (ASCII case folding, which is all the inputs use). -/
def pyLower (s : String) : String := String.mk (s.data.map Char.toLower)

/-- Python `str.strip()`: drop leading and trailing whitespace. -/
def pyStripChars (cs : List Char) : List Char :=
  ((cs.dropWhile Char.isWhitespace).reverse.dropWhile Char.isWhitespace).reverse

/-- Python `str.strip()` on strings. -/
def pyStrip (s : String) : String := String.mk (pyStripChars s.data)

/-- Python slicing `s[a:b]` for `0 ≤ a ≤ b` (clamped at the ends, as in
Python). -/
def pySlice (s : String) (a b : Nat) : String := String.mk ((s.data.take b).drop a)

/-- Python `str.count(sub)` for a non-empty `sub`: number of non-overlapping
occurrences, scanning left to right, with the same skip-counter scheme as
`pySplitSepAux`. -/
def pyCountAux (n0 : Char) (ntail : List Char) : List Char → Nat → Nat
  | [], _ => 0
  | _ :: rest, k + 1 => pyCountAux n0 ntail rest k
  | c :: rest, 0 =>
    if (n0 :: ntail).isPrefixOf (c :: rest) then
      1 + pyCountAux n0 ntail rest ntail.length
    else
      pyCountAux n0 ntail rest 0

/-- Python `str.count(sub)`.  (`"".count` inside a string of length `n` is
`n + 1` in Python; the code only counts non-empty literals.) -/
def pyCount (s : String) (sub : String) : Nat :=
  match sub.data with
  | [] => s.data.length + 1
  | c :: cs => pyCountAux c cs s.data 0

/-! ## Sentence chunker (`ImprovedSEC10KProcessor.create_chunks`) -/

/-- `MIN_CHUNK_SIZE_WORDS` from `process_10k_improved.py`. -/
def MIN_CHUNK_SIZE_WORDS : Nat := 100

/-- `MAX_CHUNK_SIZE_WORDS` from `process_10k_improved.py`. -/
def MAX_CHUNK_SIZE_WORDS : Nat := 1000

/-- `int(current_word_count * OVERLAP_PERCENTAGE)` with
`OVERLAP_PERCENTAGE = 0.15`; exact for all feasible counts (see header). -/
def overlapWords (c : Nat) : Nat := 3 * c / 20

/-- One chunk dictionary `{'text': ..., 'word_count': ..., 'section': ...}`
as produced by `create_chunks`. -/
structure Chunk where
  text : String
  word_count : Nat
  sectionName : String
deriving DecidableEq, Repr

/-- The loop state of `create_chunks`: the chunks emitted so far plus the
running buffer `current_chunk` (a list of words) and `current_word_count`. -/
structure ChunkState where
  chunks : List Chunk
  current_chunk : List String
  current_word_count : Nat
deriving DecidableEq, Repr

/-- Python `current_chunk[-overlap_words:]` for `overlap_words > 0`. -/
def lastSlice (l : List String) (k : Nat) : List String := l.drop (l.length - k)

/-- The body of the `for sentence in sentences` loop of `create_chunks`. -/
def processSentence (sectionName : String) (st : ChunkState) (sentence : String) :
    ChunkState :=
  let words := pySplit sentence
  let word_count := words.length
  if st.current_word_count + word_count > MAX_CHUNK_SIZE_WORDS ∧
      st.current_chunk ≠ [] then
    let chunk_text := pyJoin " " st.current_chunk
    let chunks := st.chunks ++ [⟨chunk_text, st.current_word_count, sectionName⟩]
    let overlap_words := overlapWords st.current_word_count
    let overlap_text :=
      if overlap_words > 0 then pyJoin " " (lastSlice st.current_chunk overlap_words)
      else ""
    if overlap_text ≠ "" then
      let current_chunk := pySplit overlap_text ++ words
      ⟨chunks, current_chunk, current_chunk.length⟩
    else
      ⟨chunks, words, word_count⟩
  else
    ⟨st.chunks, st.current_chunk ++ words, st.current_word_count + word_count⟩

/-- `create_chunks` after sentence tokenization: run the loop over the given
sentence list, then flush the final buffer (only if it reaches
`MIN_CHUNK_SIZE_WORDS`), or emit the whole section verbatim when the entire
section is shorter than `MIN_CHUNK_SIZE_WORDS`. -/
def createChunksFrom (text sectionName : String) (sentences : List String) :
    List Chunk :=
  let st := sentences.foldl (processSentence sectionName) ⟨[], [], 0⟩
  if st.current_chunk ≠ [] ∧ st.current_word_count ≥ MIN_CHUNK_SIZE_WORDS then
    st.chunks ++ [⟨pyJoin " " st.current_chunk, st.current_word_count, sectionName⟩]
  else if st.current_chunk ≠ [] ∧ (pySplit text).length < MIN_CHUNK_SIZE_WORDS then
    st.chunks ++ [⟨text, (pySplit text).length, sectionName⟩]
  else
    st.chunks

/-- `create_chunks(text, section_name)`: tokenize into sentences with the
(external, here parameterized) `sent_tokenize`; on any tokenizer exception
fall back to `text.split('. ')`.  The rest of the body is total, so the
function never raises. -/
def createChunks (tokenize : String → Except String (List String))
    (text sectionName : String) : List Chunk :=
  let sentences :=
    match tokenize text with
    | Except.ok ss => ss
    | Except.error _ => pySplitSep ". " text
  createChunksFrom text sectionName sentences

/-! ## Words produced by `pySplit` are non-empty and whitespace-free -/

/-- A word as produced by Python `str.split()`: non-empty, no whitespace. -/
def CleanW (w : String) : Prop := w.data ≠ [] ∧ ∀ c ∈ w.data, ¬ c.isWhitespace

theorem pySplitAux_clean (cs : List Char) :
    ∀ acc, (∀ c ∈ acc, ¬ c.isWhitespace) →
      ∀ w ∈ pySplitAux cs acc, w ≠ [] ∧ ∀ c ∈ w, ¬ c.isWhitespace := by
  induction cs with
  | nil =>
    intro acc hacc w hw
    simp only [pySplitAux] at hw
    by_cases h : acc.isEmpty
    · simp [h] at hw
    · rw [if_neg h] at hw
      rw [List.mem_singleton] at hw
      subst hw
      constructor
      · simpa [List.isEmpty_iff] using h
      · intro c hc; exact hacc c (by simpa using hc)
  | cons c cs ih =>
    intro acc hacc w hw
    simp only [pySplitAux] at hw
    by_cases hws : c.isWhitespace
    · rw [if_pos hws] at hw
      by_cases hacc0 : acc.isEmpty
      · rw [if_pos hacc0] at hw
        exact ih [] (by simp) w hw
      · rw [if_neg hacc0] at hw
        rcases List.mem_cons.mp hw with hw | hw
        · subst hw
          refine ⟨by simpa [List.isEmpty_iff] using hacc0, ?_⟩
          intro d hd; exact hacc d (by simpa using hd)
        · exact ih [] (by simp) w hw
    · rw [if_neg hws] at hw
      refine ih (c :: acc) ?_ w hw
      intro d hd
      rcases List.mem_cons.mp hd with h | h
      · subst h; exact hws
      · exact hacc d h

theorem pySplit_clean (s : String) : ∀ w ∈ pySplit s, CleanW w := by
  intro w hw
  simp only [pySplit, List.mem_map] at hw
  obtain ⟨l, hl, rfl⟩ := hw
  have := pySplitAux_clean s.data [] (by simp) l hl
  exact ⟨this.1, this.2⟩

/-! ## Round trip: `' '.join(ws).split() == ws` for clean words -/

theorem pySplitAux_all_solid (cs : List Char) :
    ∀ acc, (∀ c ∈ cs, ¬ c.isWhitespace) → (acc = [] → cs ≠ []) →
      pySplitAux cs acc = [acc.reverse ++ cs] := by
  induction cs with
  | nil =>
    intro acc _ hne
    have h : ¬ acc.isEmpty := by
      simp only [List.isEmpty_iff]
      intro h; exact hne h rfl
    simp only [pySplitAux]
    rw [if_neg h]
    simp
  | cons c cs ih =>
    intro acc hsolid _
    have hc : ¬ c.isWhitespace := hsolid c (by simp)
    simp only [pySplitAux]
    rw [if_neg hc]
    rw [ih (c :: acc) (fun d hd => hsolid d (by simp [hd])) (by simp)]
    simp

theorem pySplit_of_cleanW (w : String) (hw : CleanW w) : pySplit w = [w] := by
  simp only [pySplit]
  rw [pySplitAux_all_solid w.data [] hw.2 (fun _ => hw.1)]
  simp

theorem pySplitAux_word_space (rest : List Char) (w : List Char)
    (hsolid : ∀ c ∈ w, ¬ c.isWhitespace) :
    ∀ acc, (acc = [] → w ≠ []) →
      pySplitAux (w ++ ' ' :: rest) acc = (acc.reverse ++ w) :: pySplitAux rest [] := by
  induction w with
  | nil =>
    intro acc hne
    have hacc : ¬ acc.isEmpty := by
      simp only [List.isEmpty_iff]
      intro h; exact hne h rfl
    simp only [List.nil_append, pySplitAux]
    rw [if_pos (by decide), if_neg hacc]
    simp
  | cons c w ih =>
    intro acc _
    have hc : ¬ c.isWhitespace := hsolid c (by simp)
    rw [List.cons_append]
    simp only [pySplitAux]
    rw [if_neg hc]
    rw [ih (fun d hd => hsolid d (by simp [hd])) (c :: acc) (by simp)]
    simp

theorem data_pyJoin_cons (w w' : String) (ws' : List String) :
    (pyJoin " " (w :: w' :: ws')).data
      = w.data ++ ' ' :: (pyJoin " " (w' :: ws')).data := by
  show (w ++ " " ++ pyJoin " " (w' :: ws')).data = _
  rw [String.data_append, String.data_append, List.append_assoc]
  rfl

theorem pySplit_pyJoin (ws : List String) (h : ∀ w ∈ ws, CleanW w) :
    pySplit (pyJoin " " ws) = ws := by
  induction ws with
  | nil => rfl
  | cons w ws ih =>
    match ws, ih with
    | [], _ => exact pySplit_of_cleanW w (h w (by simp))
    | w' :: ws', ih =>
      have hw : CleanW w := h w (by simp)
      simp only [pySplit, data_pyJoin_cons]
      rw [pySplitAux_word_space _ _ hw.2 [] (fun _ => hw.1)]
      have htail := ih (fun x hx => h x (List.mem_cons_of_mem w hx))
      simp only [pySplit] at htail
      simp only [List.map_cons, List.reverse_nil, List.nil_append, htail]

theorem pyJoin_ne_empty (ws : List String) (hne : ws ≠ [])
    (h : ∀ w ∈ ws, CleanW w) : pyJoin " " ws ≠ "" := by
  intro heq
  have hdata : (pyJoin " " ws).data = [] := by rw [heq]
  match ws, hne with
  | [w], _ =>
    exact (h w (by simp)).1 (by simpa [pyJoin] using hdata)
  | w :: w' :: ws', _ =>
    rw [data_pyJoin_cons] at hdata
    simp at hdata

/-! ## Small list and arithmetic helpers -/

theorem isPrefixOf_self {α : Type} [BEq α] [LawfulBEq α] (l : List α) :
    List.isPrefixOf l l = true := by
  induction l with
  | nil => rfl
  | cons a l ih => simp [List.isPrefixOf, ih]

theorem isPrefixOf_extend {α : Type} [BEq α] (l : List α) :
    ∀ m r : List α, List.isPrefixOf l m = true → List.isPrefixOf l (m ++ r) = true := by
  induction l with
  | nil => intro m r _; simp [List.isPrefixOf]
  | cons a l ih =>
    intro m r h
    cases m with
    | nil => simp [List.isPrefixOf] at h
    | cons b m =>
      simp only [List.isPrefixOf, Bool.and_eq_true] at h
      simp [List.isPrefixOf, h.1, ih m r h.2]

theorem overlapWords_lt (c : Nat) (h : 1 ≤ c) : overlapWords c < c := by
  have h1 := Nat.div_add_mod (3 * c) 20
  have h2 : 3 * c % 20 < 20 := Nat.mod_lt _ (by norm_num)
  simp only [overlapWords]
  omega

theorem overlapWords_zero_le (c : Nat) (h : overlapWords c = 0) : c ≤ 6 := by
  have h1 := Nat.div_add_mod (3 * c) 20
  have h2 : 3 * c % 20 < 20 := Nat.mod_lt _ (by norm_num)
  simp only [overlapWords] at h
  omega

theorem overlapWords_newbuf_min (c wc : Nat) (h1 : 1 ≤ c)
    (hover : MAX_CHUNK_SIZE_WORDS < c + wc) (hk : 0 < overlapWords c) :
    MIN_CHUNK_SIZE_WORDS ≤ overlapWords c + wc := by
  have hd := Nat.div_add_mod (3 * c) 20
  have hm : 3 * c % 20 < 20 := Nat.mod_lt _ (by norm_num)
  simp only [MAX_CHUNK_SIZE_WORDS] at hover
  simp only [MIN_CHUNK_SIZE_WORDS, overlapWords] at *
  omega

theorem lastSlice_length (l : List String) (k : Nat) (h : k ≤ l.length) :
    (lastSlice l k).length = k := by
  simp [lastSlice, List.length_drop]
  omega

theorem lastSlice_ne_nil (l : List String) (k : Nat) (hk : 0 < k)
    (h : k ≤ l.length) : lastSlice l k ≠ [] := by
  intro hcon
  have := lastSlice_length l k h
  rw [hcon] at this
  simp at this
  omega

/-! ## The loop invariant of `create_chunks` -/

/-- Words of a chunk, as recovered by re-splitting its text (Python
`chunk['text'].split()`). -/
def chunkWords (c : Chunk) : List String := pySplit c.text

/-- Overlap relation between two consecutive chunks: with
`k = ⌊0.15 · prev.word_count⌋`, the first `k` words of the later chunk are the
last `k` words of the earlier chunk; if `k = 0`, the later chunk starts with
one of the input sentences (the one that triggered the overflow). -/
def overlapOK (ss : List String) (c₁ c₂ : Chunk) : Prop :=
  ((chunkWords c₂).take (overlapWords c₁.word_count)
     = (chunkWords c₁).drop (c₁.word_count - overlapWords c₁.word_count))
  ∧ (overlapWords c₁.word_count = 0 →
      ∃ s ∈ ss, List.isPrefixOf (pySplit s) (chunkWords c₂) = true)

/-- Relation between the last emitted chunk and the current buffer: the
buffer still starts with the overlap seeded from that chunk (or with the
triggering sentence when the overlap was empty). -/
def BufLink (ss : List String) (c : Chunk) (buf : List String) : Prop :=
  (buf.take (overlapWords c.word_count)
     = (chunkWords c).drop (c.word_count - overlapWords c.word_count))
  ∧ overlapWords c.word_count ≤ buf.length
  ∧ (overlapWords c.word_count = 0 →
      ∃ s ∈ ss, List.isPrefixOf (pySplit s) buf = true)

/-- Everything that stays true of the loop state of `create_chunks`. -/
structure LoopInv (ss : List String) (st : ChunkState) : Prop where
  count_eq : st.current_word_count = st.current_chunk.length
  buf_clean : ∀ w ∈ st.current_chunk, CleanW w
  chunks_words : ∀ c ∈ st.chunks,
      (∀ w ∈ chunkWords c, CleanW w) ∧ (chunkWords c).length = c.word_count
  chain : List.Chain' (overlapOK ss) st.chunks
  link : ∀ pre c, st.chunks = pre ++ [c] → BufLink ss c st.current_chunk
  nonfirst_min : ∀ c ∈ st.chunks.drop 1, MIN_CHUNK_SIZE_WORDS ≤ c.word_count
  buf_min : st.chunks ≠ [] → MIN_CHUNK_SIZE_WORDS ≤ st.current_chunk.length

theorem loopInv_init (ss : List String) : LoopInv ss ⟨[], [], 0⟩ := by
  refine ⟨rfl, by simp, by simp, List.chain'_nil, ?_, by simp, by simp⟩
  intro pre c h
  simp at h

theorem processSentence_inv (ss : List String) (n : String) (st : ChunkState)
    (sentence : String) (hs : sentence ∈ ss) (h : LoopInv ss st) :
    LoopInv ss (processSentence n st sentence) := by
  classical
  obtain ⟨hcount, hbufc, hcw, hchain, hlink, hnf, hbm⟩ := h
  simp only [processSentence]
  by_cases hcond : st.current_word_count + (pySplit sentence).length >
      MAX_CHUNK_SIZE_WORDS ∧ st.current_chunk ≠ []
  · rw [if_pos hcond]
    have hbufne : st.current_chunk ≠ [] := hcond.2
    have hlen1 : 1 ≤ st.current_chunk.length := by
      cases hcl : st.current_chunk with
      | nil => exact absurd hcl hbufne
      | cons a l => simp
    have hcnt1 : 1 ≤ st.current_word_count := hcount ▸ hlen1
    have hwords₂ : chunkWords ⟨pyJoin " " st.current_chunk,
        st.current_word_count, n⟩ = st.current_chunk := by
      simp only [chunkWords]
      exact pySplit_pyJoin st.current_chunk hbufc
    -- facts about the freshly emitted chunk
    have hnewcw : ∀ c ∈ st.chunks ++ [(⟨pyJoin " " st.current_chunk,
        st.current_word_count, n⟩ : Chunk)],
        (∀ w ∈ chunkWords c, CleanW w) ∧ (chunkWords c).length = c.word_count := by
      intro c hc
      rcases List.mem_append.mp hc with hc | hc
      · exact hcw c hc
      · rcases List.mem_singleton.mp hc with rfl
        refine ⟨?_, ?_⟩
        · rw [hwords₂]; exact hbufc
        · rw [hwords₂]; exact hcount.symm
    have hnewchain : List.Chain' (overlapOK ss) (st.chunks ++
        [⟨pyJoin " " st.current_chunk, st.current_word_count, n⟩]) := by
      rw [List.chain'_append]
      refine ⟨hchain, List.chain'_singleton _, ?_⟩
      intro x hx y hy
      rcases List.eq_nil_or_concat st.chunks with hnil | ⟨pre, c₁, hconcat⟩
      · rw [hnil] at hx; simp at hx
      · rw [List.concat_eq_append] at hconcat
        rw [hconcat, List.getLast?_concat, Option.mem_def] at hx
        rw [List.head?_cons, Option.mem_def] at hy
        have hx' : x = c₁ := (Option.some_inj.mp hx).symm
        have hy' : y = ⟨pyJoin " " st.current_chunk, st.current_word_count, n⟩ :=
          (Option.some_inj.mp hy).symm
        obtain ⟨hl1, hl2, hl3⟩ := hlink pre c₁ hconcat
        rw [hx', hy']
        constructor
        · rw [hwords₂]; exact hl1
        · intro hk0
          obtain ⟨s, hsmem, hpre⟩ := hl3 hk0
          exact ⟨s, hsmem, by rw [hwords₂]; exact hpre⟩
    have hnewnf : ∀ c ∈ (st.chunks ++ [(⟨pyJoin " " st.current_chunk,
        st.current_word_count, n⟩ : Chunk)]).drop 1,
        MIN_CHUNK_SIZE_WORDS ≤ c.word_count := by
      intro c hc
      cases hch : st.chunks with
      | nil => rw [hch] at hc; simp at hc
      | cons c0 cs =>
        rw [hch, List.cons_append, List.drop_one, List.tail_cons] at hc
        rcases List.mem_append.mp hc with hc | hc
        · exact hnf c (by rw [hch]; simpa using hc)
        · rcases List.mem_singleton.mp hc with rfl
          have := hbm (by rw [hch]; simp)
          dsimp only
          omega
    by_cases hk : overlapWords st.current_word_count > 0
    · -- positive overlap: the buffer is reseeded with the trailing words
      rw [if_pos hk]
      have hklen : overlapWords st.current_word_count ≤ st.current_chunk.length := by
        have := overlapWords_lt st.current_word_count hcnt1
        omega
      have hslice_clean : ∀ w ∈ lastSlice st.current_chunk
          (overlapWords st.current_word_count), CleanW w := by
        intro w hw
        exact hbufc w (List.drop_subset _ _ hw)
      have hslice_ne : lastSlice st.current_chunk
          (overlapWords st.current_word_count) ≠ [] :=
        lastSlice_ne_nil _ _ hk hklen
      have hjoin_ne : pyJoin " " (lastSlice st.current_chunk
          (overlapWords st.current_word_count)) ≠ "" :=
        pyJoin_ne_empty _ hslice_ne hslice_clean
      rw [if_pos hjoin_ne]
      have hre : pySplit (pyJoin " " (lastSlice st.current_chunk
          (overlapWords st.current_word_count)))
          = lastSlice st.current_chunk (overlapWords st.current_word_count) :=
        pySplit_pyJoin _ hslice_clean
      have hslice_len : (lastSlice st.current_chunk
          (overlapWords st.current_word_count)).length
          = overlapWords st.current_word_count := lastSlice_length _ _ hklen
      refine ⟨rfl, ?_, hnewcw, hnewchain, ?_, hnewnf, ?_⟩
      · intro w hw
        rw [hre] at hw
        rcases List.mem_append.mp hw with hw | hw
        · exact hslice_clean w hw
        · exact pySplit_clean sentence w hw
      · intro pre c hc
        dsimp only at hc ⊢
        have hlast : some (⟨pyJoin " " st.current_chunk, st.current_word_count,
            n⟩ : Chunk) = some c := by
          rw [← List.getLast?_concat st.chunks, hc, List.getLast?_concat]
        obtain rfl := (Option.some_inj.mp hlast).symm
        unfold BufLink
        dsimp only
        rw [hre]
        refine ⟨?_, ?_, ?_⟩
        · rw [List.take_append_of_le_length (by rw [hslice_len])]
          rw [hwords₂]
          have : (lastSlice st.current_chunk
              (overlapWords st.current_word_count)).take
              (overlapWords st.current_word_count)
              = lastSlice st.current_chunk (overlapWords st.current_word_count) := by
            apply List.take_of_length_le
            rw [hslice_len]
          rw [this]
          simp only [lastSlice, hcount]
        · rw [List.length_append, hslice_len]
          omega
        · intro hk0; omega
      · intro _
        dsimp only
        rw [hre, List.length_append, hslice_len]
        have := overlapWords_newbuf_min st.current_word_count
          (pySplit sentence).length hcnt1 hcond.1 hk
        omega
    · -- zero overlap: the buffer restarts with the triggering sentence
      rw [if_neg hk]
      have hk0 : overlapWords st.current_word_count = 0 := by omega
      rw [if_neg (by simp)]
      have hc6 : st.current_word_count ≤ 6 := overlapWords_zero_le _ hk0
      have hwc : MIN_CHUNK_SIZE_WORDS ≤ (pySplit sentence).length := by
        have := hcond.1
        simp only [MAX_CHUNK_SIZE_WORDS] at this
        simp only [MIN_CHUNK_SIZE_WORDS]
        omega
      refine ⟨rfl, ?_, hnewcw, hnewchain, ?_, hnewnf, ?_⟩
      · intro w hw; exact pySplit_clean sentence w hw
      · intro pre c hc
        dsimp only at hc ⊢
        have hlast : some (⟨pyJoin " " st.current_chunk, st.current_word_count,
            n⟩ : Chunk) = some c := by
          rw [← List.getLast?_concat st.chunks, hc, List.getLast?_concat]
        obtain rfl := (Option.some_inj.mp hlast).symm
        unfold BufLink
        dsimp only
        refine ⟨?_, ?_, ?_⟩
        · simp only [hk0, List.take_zero]
          rw [hwords₂, hcount, Nat.sub_zero, List.drop_length]
        · simp [hk0]
        · intro _
          exact ⟨sentence, hs, isPrefixOf_self _⟩
      · intro _
        dsimp only
        exact hwc
  · rw [if_neg hcond]
    refine ⟨?_, ?_, hcw, hchain, ?_, hnf, ?_⟩
    · rw [List.length_append, hcount]
    · intro w hw
      rcases List.mem_append.mp hw with hw | hw
      · exact hbufc w hw
      · exact pySplit_clean sentence w hw
    · intro pre c hc
      dsimp only at hc ⊢
      obtain ⟨hl1, hl2, hl3⟩ := hlink pre c hc
      unfold BufLink
      refine ⟨?_, ?_, ?_⟩
      · rw [List.take_append_of_le_length hl2]
        exact hl1
      · rw [List.length_append]
        omega
      · intro hk0
        obtain ⟨s, hsmem, hpre⟩ := hl3 hk0
        exact ⟨s, hsmem, isPrefixOf_extend _ _ _ hpre⟩
    · intro hne
      dsimp only at hne ⊢
      have := hbm hne
      rw [List.length_append]
      omega

theorem foldl_inv (ss : List String) (n : String) :
    ∀ (l : List String), (∀ s ∈ l, s ∈ ss) → ∀ st, LoopInv ss st →
      LoopInv ss (l.foldl (processSentence n) st) := by
  intro l
  induction l with
  | nil => intro _ st h; exact h
  | cons s l ih =>
    intro hsub st h
    simp only [List.foldl_cons]
    exact ih (fun x hx => hsub x (by simp [hx]))
      _ (processSentence_inv ss n st s (hsub s (by simp)) h)

/-! ## A short section never triggers an overflow -/

/-- Sum of the word counts of a sentence list. -/
def sumWC (ss : List String) : Nat := (ss.map fun s => (pySplit s).length).sum

theorem foldl_no_emit (n : String) (l : List String) :
    ∀ st : ChunkState, st.current_word_count = st.current_chunk.length →
      st.current_word_count + sumWC l ≤ MAX_CHUNK_SIZE_WORDS →
      l.foldl (processSentence n) st =
        ⟨st.chunks, st.current_chunk ++ (l.map pySplit).flatten,
          st.current_word_count + sumWC l⟩ := by
  induction l with
  | nil =>
    intro st hcnt _
    simp [sumWC]
  | cons s l ih =>
    intro st hcnt hsum
    have hsum_cons : sumWC (s :: l) = (pySplit s).length + sumWC l := by
      simp [sumWC]
    have hcond : ¬ (st.current_word_count + (pySplit s).length >
        MAX_CHUNK_SIZE_WORDS ∧ st.current_chunk ≠ []) := by
      rw [hsum_cons] at hsum
      intro hcontra
      omega
    simp only [List.foldl_cons, processSentence]
    rw [if_neg hcond]
    rw [ih ⟨st.chunks, st.current_chunk ++ pySplit s,
        st.current_word_count + (pySplit s).length⟩
      (by dsimp only; rw [List.length_append, hcnt])
      (by dsimp only; rw [hsum_cons] at hsum; omega)]
    rw [hsum_cons]
    dsimp only
    rw [List.append_assoc, Nat.add_assoc]
    simp

/-! ## Upper bound on chunk sizes -/

/-- The largest word count of any single sentence in the input. -/
def maxSentWC (ss : List String) : Nat :=
  (ss.map fun s => (pySplit s).length).foldr max 0

theorem le_maxSentWC (ss : List String) (s : String) (hs : s ∈ ss) :
    (pySplit s).length ≤ maxSentWC ss := by
  induction ss with
  | nil => simp at hs
  | cons a l ih =>
    rcases List.mem_cons.mp hs with rfl | hs
    · simp only [maxSentWC, List.map_cons, List.foldr_cons]
      exact Nat.le_max_left _ _
    · simp only [maxSentWC, List.map_cons, List.foldr_cons]
      exact le_trans (ih hs) (Nat.le_max_right _ _)

/-- The bound that every chunk word count respects:
`max MAX_CHUNK_SIZE_WORDS (2 · longest sentence)`. -/
def chunkBound (ss : List String) : Nat :=
  max MAX_CHUNK_SIZE_WORDS (2 * maxSentWC ss)

/-- Upper-bound invariant on the loop state. -/
def UpInv (ss : List String) (st : ChunkState) : Prop :=
  st.current_word_count ≤ chunkBound ss ∧
  ∀ c ∈ st.chunks, c.word_count ≤ chunkBound ss

theorem overlap_plus_le_chunkBound (ss : List String) (c wc : Nat)
    (hc : c ≤ chunkBound ss) (hwc : wc ≤ maxSentWC ss) :
    overlapWords c + wc ≤ chunkBound ss := by
  have h1000 : MAX_CHUNK_SIZE_WORDS ≤ chunkBound ss := Nat.le_max_left _ _
  have h2L : 2 * maxSentWC ss ≤ chunkBound ss := Nat.le_max_right _ _
  have hd := Nat.div_add_mod (3 * c) 20
  have hm : 3 * c % 20 < 20 := Nat.mod_lt _ (by norm_num)
  simp only [MAX_CHUNK_SIZE_WORDS] at h1000
  simp only [overlapWords]
  omega

theorem processSentence_upInv (ss : List String) (n : String) (st : ChunkState)
    (sentence : String) (hs : sentence ∈ ss) (hLI : LoopInv ss st)
    (h : UpInv ss st) : UpInv ss (processSentence n st sentence) := by
  obtain ⟨hcnt, hcks⟩ := h
  have hwc : (pySplit sentence).length ≤ maxSentWC ss := le_maxSentWC ss sentence hs
  have hwcB : (pySplit sentence).length ≤ chunkBound ss := by
    have h2L : 2 * maxSentWC ss ≤ chunkBound ss := Nat.le_max_right _ _
    omega
  simp only [processSentence]
  by_cases hcond : st.current_word_count + (pySplit sentence).length >
      MAX_CHUNK_SIZE_WORDS ∧ st.current_chunk ≠ []
  · rw [if_pos hcond]
    have hnewcks : ∀ c ∈ st.chunks ++ [(⟨pyJoin " " st.current_chunk,
        st.current_word_count, n⟩ : Chunk)], c.word_count ≤ chunkBound ss := by
      intro c hc
      rcases List.mem_append.mp hc with hc | hc
      · exact hcks c hc
      · rcases List.mem_singleton.mp hc with rfl
        exact hcnt
    have hcnt1 : 1 ≤ st.current_word_count := by
      have h1 : st.current_chunk ≠ [] := hcond.2
      rw [hLI.count_eq]
      cases hcl : st.current_chunk with
      | nil => exact absurd hcl h1
      | cons a l => simp
    by_cases hov : overlapWords st.current_word_count > 0
    · rw [if_pos hov]
      have hklen : overlapWords st.current_word_count ≤ st.current_chunk.length := by
        have h1 := overlapWords_lt st.current_word_count hcnt1
        have h2 := hLI.count_eq
        omega
      have hslice_clean : ∀ w ∈ lastSlice st.current_chunk
          (overlapWords st.current_word_count), CleanW w := by
        intro w hw
        exact hLI.buf_clean w (List.drop_subset _ _ hw)
      have hjoin_ne : pyJoin " " (lastSlice st.current_chunk
          (overlapWords st.current_word_count)) ≠ "" :=
        pyJoin_ne_empty _ (lastSlice_ne_nil _ _ hov hklen) hslice_clean
      rw [if_pos hjoin_ne]
      refine ⟨?_, hnewcks⟩
      dsimp only
      rw [pySplit_pyJoin _ hslice_clean, List.length_append,
        lastSlice_length _ _ hklen]
      have := overlap_plus_le_chunkBound ss st.current_word_count
        (pySplit sentence).length hcnt hwc
      omega
    · rw [if_neg hov]
      rw [if_neg (by simp)]
      exact ⟨hwcB, hnewcks⟩
  · rw [if_neg hcond]
    refine ⟨?_, hcks⟩
    dsimp only
    rcases Classical.em (st.current_chunk = []) with hnil | hnil
    · have : st.current_word_count = 0 := by
        rw [hLI.count_eq, hnil]; rfl
      omega
    · have : ¬ st.current_word_count + (pySplit sentence).length >
          MAX_CHUNK_SIZE_WORDS := fun hgt => hcond ⟨hgt, hnil⟩
      have h1000 : MAX_CHUNK_SIZE_WORDS ≤ chunkBound ss := Nat.le_max_left _ _
      omega

theorem foldl_upInv (ss : List String) (n : String) :
    ∀ (l : List String), (∀ s ∈ l, s ∈ ss) → ∀ st,
      LoopInv ss st → UpInv ss st →
      UpInv ss (l.foldl (processSentence n) st) := by
  intro l
  induction l with
  | nil => intro _ st _ h; exact h
  | cons s l ih =>
    intro hsub st hLI h
    simp only [List.foldl_cons]
    exact ih (fun x hx => hsub x (by simp [hx]))
      _ (processSentence_inv ss n st s (hsub s (by simp)) hLI)
      (processSentence_upInv ss n st s (hsub s (by simp)) hLI h)

/-! ## Facts about the final step of `create_chunks` -/

theorem chain_append_final (ss : List String) (st : ChunkState)
    (hinv : LoopInv ss st) (c₂ : Chunk)
    (hw : chunkWords c₂ = st.current_chunk) :
    List.Chain' (overlapOK ss) (st.chunks ++ [c₂]) := by
  rw [List.chain'_append]
  refine ⟨hinv.chain, List.chain'_singleton _, ?_⟩
  intro x hx y hy
  rcases List.eq_nil_or_concat st.chunks with hnil | ⟨pre, c₁, hconcat⟩
  · rw [hnil] at hx; simp at hx
  · rw [List.concat_eq_append] at hconcat
    rw [hconcat, List.getLast?_concat, Option.mem_def] at hx
    rw [List.head?_cons, Option.mem_def] at hy
    have hx' : x = c₁ := (Option.some_inj.mp hx).symm
    have hy' : y = c₂ := (Option.some_inj.mp hy).symm
    obtain ⟨hl1, hl2, hl3⟩ := hinv.link pre c₁ hconcat
    rw [hx', hy']
    constructor
    · rw [hw]; exact hl1
    · intro hk0
      obtain ⟨s, hsmem, hpre⟩ := hl3 hk0
      exact ⟨s, hsmem, by rw [hw]; exact hpre⟩

theorem loopInv_final (n : String) (ss : List String) :
    LoopInv ss (ss.foldl (processSentence n) ⟨[], [], 0⟩) :=
  foldl_inv ss n ss (fun _ h => h) _ (loopInv_init ss)

/-- With a word-preserving tokenization (`H`), the word count of the section
text is the total word count of the sentences. -/
theorem total_eq_sumWC (text : String) (ss : List String)
    (H : pySplit text = (ss.map pySplit).flatten) :
    (pySplit text).length = sumWC ss := by
  rw [H, List.length_flatten, List.map_map]
  rfl

/-- C2.  For every section text and tokenization of it into sentences that
preserves the words of the text, consecutive chunks produced by
`create_chunks` satisfy the overlap invariant: the later chunk's leading
`⌊prev.word_count · 0.15⌋` words equal the trailing `⌊prev.word_count · 0.15⌋`
words of the preceding chunk, and when that overlap count is zero the later
chunk starts with the overflow-triggering sentence (one of the input
sentences). -/
theorem overlap_invariant_holds (text n : String) (ss : List String)
    (H : pySplit text = (ss.map pySplit).flatten) :
    List.Chain' (overlapOK ss) (createChunksFrom text n ss) := by
  have hinv := loopInv_final n ss
  simp only [createChunksFrom]
  by_cases h1 : (ss.foldl (processSentence n) ⟨[], [], 0⟩).current_chunk ≠ [] ∧
      (ss.foldl (processSentence n) ⟨[], [], 0⟩).current_word_count ≥
        MIN_CHUNK_SIZE_WORDS
  · rw [if_pos h1]
    apply chain_append_final ss _ hinv
    simp only [chunkWords]
    exact pySplit_pyJoin _ hinv.buf_clean
  · rw [if_neg h1]
    by_cases h2 : (ss.foldl (processSentence n) ⟨[], [], 0⟩).current_chunk ≠ [] ∧
        (pySplit text).length < MIN_CHUNK_SIZE_WORDS
    · rw [if_pos h2]
      -- the whole section is short, so no overflow ever happened:
      -- the emitted-chunk list is empty and the result is a single chunk
      have hsum : sumWC ss ≤ MAX_CHUNK_SIZE_WORDS := by
        have := total_eq_sumWC text ss H
        have h2' := h2.2
        simp only [MIN_CHUNK_SIZE_WORDS] at h2'
        simp only [MAX_CHUNK_SIZE_WORDS]
        omega
      have hne := foldl_no_emit n ss ⟨[], [], 0⟩ rfl (by simpa using hsum)
      rw [hne]
      simp
    · rw [if_neg h2]
      exact hinv.chain

/-! ## C10: word_count always matches the text -/

/-- C10.  Every chunk emitted by `create_chunks` (any text, section name and
sentence list) has `word_count == len(text.split())`. -/
theorem word_count_eq_split_length (text n : String) (ss : List String) :
    ∀ c ∈ createChunksFrom text n ss, c.word_count = (pySplit c.text).length := by
  have hinv := loopInv_final n ss
  intro c hc
  simp only [createChunksFrom] at hc
  by_cases h1 : (ss.foldl (processSentence n) ⟨[], [], 0⟩).current_chunk ≠ [] ∧
      (ss.foldl (processSentence n) ⟨[], [], 0⟩).current_word_count ≥
        MIN_CHUNK_SIZE_WORDS
  · rw [if_pos h1] at hc
    rcases List.mem_append.mp hc with hc | hc
    · exact ((hinv.chunks_words c hc).2).symm
    · rcases List.mem_singleton.mp hc with rfl
      dsimp only
      rw [pySplit_pyJoin _ hinv.buf_clean]
      exact hinv.count_eq
  · rw [if_neg h1] at hc
    by_cases h2 : (ss.foldl (processSentence n) ⟨[], [], 0⟩).current_chunk ≠ [] ∧
        (pySplit text).length < MIN_CHUNK_SIZE_WORDS
    · rw [if_pos h2] at hc
      rcases List.mem_append.mp hc with hc | hc
      · exact ((hinv.chunks_words c hc).2).symm
      · rcases List.mem_singleton.mp hc with rfl
        rfl
    · rw [if_neg h2] at hc
      exact ((hinv.chunks_words c hc).2).symm

/-! ## C9: an undersized final buffer in an oversized section is discarded -/

/-- C9.  If, after all sentences are consumed, the remaining buffer is
non-empty but below `MIN_CHUNK_SIZE_WORDS`, while the section text itself has
at least `MIN_CHUNK_SIZE_WORDS` words, then `create_chunks` returns only the
chunks emitted inside the loop: the final buffer is silently discarded. -/
theorem final_buffer_discarded (text n : String) (ss : List String)
    (hne : (ss.foldl (processSentence n) ⟨[], [], 0⟩).current_chunk ≠ [])
    (hsmall : (ss.foldl (processSentence n) ⟨[], [], 0⟩).current_word_count <
      MIN_CHUNK_SIZE_WORDS)
    (hbig : MIN_CHUNK_SIZE_WORDS ≤ (pySplit text).length) :
    createChunksFrom text n ss = (ss.foldl (processSentence n) ⟨[], [], 0⟩).chunks := by
  simp only [createChunksFrom]
  rw [if_neg (by intro h; omega), if_neg (by intro h; omega)]

/-! ## C8: tokenizer failure falls back to naive splitting -/

/-- C8.  `create_chunks` is a total function of its inputs (the Lean embedding
carries no exception effect), and when sentence segmentation raises
(`tokenize text = Except.error e`) it degrades to naive splitting of the text
on `'. '` and still returns a (possibly empty) chunk list. -/
theorem createChunks_fallback (tokenize : String → Except String (List String))
    (text n : String) (e : String) (h : tokenize text = Except.error e) :
    createChunks tokenize text n = createChunksFrom text n (pySplitSep ". " text) := by
  simp only [createChunks, h]

/-! ## C1: chunk size bounds (amended) -/

/-- C1 (amended).  With a word-preserving tokenization, every chunk's
word count is at most `max 1000 (2 · longest sentence)`; every chunk except
the first has at least 100 words; a section of 1–99 words yields exactly one
verbatim chunk, and a section of 0 words yields no chunk.  (The first chunk
of a section may legitimately be under 100 words when it is closed by an
overflow-triggering sentence.) -/
theorem chunk_size_bounds (text n : String) (ss : List String)
    (H : pySplit text = (ss.map pySplit).flatten) :
    (∀ c ∈ createChunksFrom text n ss, c.word_count ≤ chunkBound ss)
    ∧ (∀ c ∈ (createChunksFrom text n ss).drop 1,
        MIN_CHUNK_SIZE_WORDS ≤ c.word_count)
    ∧ ((pySplit text).length < MIN_CHUNK_SIZE_WORDS →
        (0 < (pySplit text).length →
          createChunksFrom text n ss = [⟨text, (pySplit text).length, n⟩])
        ∧ ((pySplit text).length = 0 → createChunksFrom text n ss = [])) := by
  have hinv := loopInv_final n ss
  have hup : UpInv ss (ss.foldl (processSentence n) ⟨[], [], 0⟩) :=
    foldl_upInv ss n ss (fun _ h => h) _ (loopInv_init ss) ⟨by simp [chunkBound], by simp⟩
  have htot := total_eq_sumWC text ss H
  refine ⟨?_, ?_, ?_⟩
  · -- upper bound
    intro c hc
    simp only [createChunksFrom] at hc
    by_cases h1 : (ss.foldl (processSentence n) ⟨[], [], 0⟩).current_chunk ≠ [] ∧
        (ss.foldl (processSentence n) ⟨[], [], 0⟩).current_word_count ≥
          MIN_CHUNK_SIZE_WORDS
    · rw [if_pos h1] at hc
      rcases List.mem_append.mp hc with hc | hc
      · exact hup.2 c hc
      · rcases List.mem_singleton.mp hc with rfl
        exact hup.1
    · rw [if_neg h1] at hc
      by_cases h2 : (ss.foldl (processSentence n) ⟨[], [], 0⟩).current_chunk ≠ [] ∧
          (pySplit text).length < MIN_CHUNK_SIZE_WORDS
      · rw [if_pos h2] at hc
        rcases List.mem_append.mp hc with hc | hc
        · exact hup.2 c hc
        · rcases List.mem_singleton.mp hc with rfl
          have h2' := h2.2
          have hB : MAX_CHUNK_SIZE_WORDS ≤ chunkBound ss := Nat.le_max_left _ _
          dsimp only
          simp only [MIN_CHUNK_SIZE_WORDS] at h2'
          simp only [MAX_CHUNK_SIZE_WORDS] at hB
          omega
      · rw [if_neg h2] at hc
        exact hup.2 c hc
  · -- every chunk after the first has at least MIN words
    intro c hc
    simp only [createChunksFrom] at hc
    by_cases h1 : (ss.foldl (processSentence n) ⟨[], [], 0⟩).current_chunk ≠ [] ∧
        (ss.foldl (processSentence n) ⟨[], [], 0⟩).current_word_count ≥
          MIN_CHUNK_SIZE_WORDS
    · rw [if_pos h1] at hc
      cases hch : (ss.foldl (processSentence n) ⟨[], [], 0⟩).chunks with
      | nil => rw [hch] at hc; simp at hc
      | cons c0 cs =>
        rw [hch, List.cons_append, List.drop_one, List.tail_cons] at hc
        rcases List.mem_append.mp hc with hc | hc
        · exact hinv.nonfirst_min c (by rw [hch]; simpa using hc)
        · rcases List.mem_singleton.mp hc with rfl
          exact h1.2
    · rw [if_neg h1] at hc
      by_cases h2 : (ss.foldl (processSentence n) ⟨[], [], 0⟩).current_chunk ≠ [] ∧
          (pySplit text).length < MIN_CHUNK_SIZE_WORDS
      · rw [if_pos h2] at hc
        -- a short section cannot have emitted any loop chunk
        have hsum : 0 + sumWC ss ≤ MAX_CHUNK_SIZE_WORDS := by
          have h2' := h2.2
          simp only [MIN_CHUNK_SIZE_WORDS] at h2'
          simp only [MAX_CHUNK_SIZE_WORDS]
          omega
        have hne := foldl_no_emit n ss ⟨[], [], 0⟩ rfl hsum
        rw [hne] at hc
        simp at hc
      · rw [if_neg h2] at hc
        exact hinv.nonfirst_min c hc
  · -- behaviour on short sections
    intro hshort
    have hsum : 0 + sumWC ss ≤ MAX_CHUNK_SIZE_WORDS := by
      simp only [MIN_CHUNK_SIZE_WORDS] at hshort
      simp only [MAX_CHUNK_SIZE_WORDS]
      omega
    have hne := foldl_no_emit n ss ⟨[], [], 0⟩ rfl hsum
    constructor
    · intro hpos
      simp only [createChunksFrom, hne]
      have hbuf : ([] : List String) ++ (ss.map pySplit).flatten = pySplit text := by
        rw [H]; rfl
      rw [if_neg ?_, if_pos ?_]
      · simp
      · dsimp only
        constructor
        · rw [hbuf]
          intro hnil
          rw [hnil] at hpos
          simp at hpos
        · exact hshort
      · dsimp only
        intro hcon
        have := hcon.2
        simp only [MIN_CHUNK_SIZE_WORDS] at this hshort
        omega
    · intro hzero
      simp only [createChunksFrom, hne]
      have hbufnil : ([] : List String) ++ (ss.map pySplit).flatten = [] := by
        have : pySplit text = [] := List.eq_nil_of_length_eq_zero hzero
        rw [H] at this
        rw [this]
        rfl
      rw [if_neg ?_, if_neg ?_]
      · dsimp only
        intro hcon
        exact hcon.1 hbufnil
      · dsimp only
        intro hcon
        exact hcon.1 hbufnil

/-! ## C1: counterexample to the claimed size invariant -/

/-- First sentence of the counterexample section: 50 one-letter words. -/
def s1C1 : String := pyJoin " " (List.replicate 50 "a")

/-- Second sentence of the counterexample section: 960 one-letter words. -/
def s2C1 : String := pyJoin " " (List.replicate 960 "b")

/-- The counterexample section text: the two sentences separated by a space,
1010 words in total. -/
def tC1 : String := pyJoin " " (List.replicate 50 "a" ++ List.replicate 960 "b")

theorem cleanW_a : CleanW "a" := ⟨by decide, by decide⟩

theorem cleanW_b : CleanW "b" := ⟨by decide, by decide⟩

theorem replicate_clean (k : Nat) (w : String) (hw : CleanW w) :
    ∀ x ∈ List.replicate k w, CleanW x := by
  intro x hx
  rcases List.mem_replicate.mp hx with ⟨_, rfl⟩
  exact hw

theorem pySplit_s1C1 : pySplit s1C1 = List.replicate 50 "a" :=
  pySplit_pyJoin _ (replicate_clean 50 "a" cleanW_a)

theorem pySplit_s2C1 : pySplit s2C1 = List.replicate 960 "b" :=
  pySplit_pyJoin _ (replicate_clean 960 "b" cleanW_b)

theorem pySplit_tC1 :
    pySplit tC1 = List.replicate 50 "a" ++ List.replicate 960 "b" := by
  apply pySplit_pyJoin
  intro w hw
  rcases List.mem_append.mp hw with hw | hw
  · exact replicate_clean 50 "a" cleanW_a w hw
  · exact replicate_clean 960 "b" cleanW_b w hw

theorem processSentence_else_eq (n : String) (st : ChunkState) (s : String)
    (h : ¬ (st.current_word_count + (pySplit s).length > MAX_CHUNK_SIZE_WORDS ∧
      st.current_chunk ≠ [])) :
    processSentence n st s =
      ⟨st.chunks, st.current_chunk ++ pySplit s,
        st.current_word_count + (pySplit s).length⟩ := by
  simp only [processSentence]
  rw [if_neg h]

theorem processSentence_emit_pos_eq (n : String) (st : ChunkState) (s : String)
    (hcond : st.current_word_count + (pySplit s).length > MAX_CHUNK_SIZE_WORDS ∧
      st.current_chunk ≠ [])
    (hov : overlapWords st.current_word_count > 0)
    (hne : pyJoin " " (lastSlice st.current_chunk
      (overlapWords st.current_word_count)) ≠ "") :
    processSentence n st s =
      ⟨st.chunks ++ [⟨pyJoin " " st.current_chunk, st.current_word_count, n⟩],
        pySplit (pyJoin " " (lastSlice st.current_chunk
          (overlapWords st.current_word_count))) ++ pySplit s,
        (pySplit (pyJoin " " (lastSlice st.current_chunk
          (overlapWords st.current_word_count))) ++ pySplit s).length⟩ := by
  simp only [processSentence]
  rw [if_pos hcond, if_pos hov, if_pos hne]

theorem stepC1_1 :
    processSentence "S" ⟨[], [], 0⟩ s1C1 = ⟨[], List.replicate 50 "a", 50⟩ := by
  rw [processSentence_else_eq "S" ⟨[], [], 0⟩ s1C1 (by simp)]
  rw [pySplit_s1C1]
  simp only [List.nil_append, List.length_replicate, Nat.zero_add]

theorem stepC1_2 :
    processSentence "S" ⟨[], List.replicate 50 "a", 50⟩ s2C1 =
      ⟨[⟨pyJoin " " (List.replicate 50 "a"), 50, "S"⟩],
        List.replicate 7 "a" ++ List.replicate 960 "b", 967⟩ := by
  have hslice : lastSlice (List.replicate 50 "a") (overlapWords 50)
      = List.replicate 7 "a" := by
    have hov : overlapWords 50 = 7 := by decide
    rw [hov]
    simp only [lastSlice, List.length_replicate, List.drop_replicate]
  rw [processSentence_emit_pos_eq "S" ⟨[], List.replicate 50 "a", 50⟩ s2C1
    ?side1 (by decide) ?side3]
  case side1 =>
    refine ⟨?_, by simp⟩
    dsimp only
    rw [pySplit_s2C1, List.length_replicate]
    decide
  case side3 =>
    dsimp only
    rw [hslice]
    exact pyJoin_ne_empty _ (by decide) (replicate_clean 7 "a" cleanW_a)
  dsimp only
  rw [hslice, pySplit_pyJoin _ (replicate_clean 7 "a" cleanW_a), pySplit_s2C1]
  simp only [List.length_append, List.length_replicate, List.nil_append]

theorem createChunksFrom_C1 :
    createChunksFrom tC1 "S" [s1C1, s2C1] =
      [⟨pyJoin " " (List.replicate 50 "a"), 50, "S"⟩,
       ⟨pyJoin " " (List.replicate 7 "a" ++ List.replicate 960 "b"), 967, "S"⟩] := by
  have hfold : [s1C1, s2C1].foldl (processSentence "S") ⟨[], [], 0⟩ =
      ⟨[⟨pyJoin " " (List.replicate 50 "a"), 50, "S"⟩],
        List.replicate 7 "a" ++ List.replicate 960 "b", 967⟩ := by
    rw [List.foldl_cons, stepC1_1, List.foldl_cons, stepC1_2, List.foldl_nil]
  simp only [createChunksFrom]
  rw [hfold]
  rw [if_pos ?_]
  · rfl
  · constructor
    · dsimp only
      intro h
      have h2 := congrArg List.length h
      simp only [List.length_append, List.length_replicate, List.length_nil] at h2
      omega
    · dsimp only
      decide

/-- C1 (counterexample).  A 1010-word section made of a 50-word sentence
followed by a 960-word sentence produces chunks of word counts `[50, 967]`:
the first chunk has fewer than `MIN_CHUNK_SIZE_WORDS = 100` words even though
the section's word count (1010) is not below 100 and the chunk is not the
whole section, so neither claimed exception applies. -/
theorem chunk_size_bounds_counterexample :
    ((createChunksFrom tC1 "S" [s1C1, s2C1]).map Chunk.word_count = [50, 967])
    ∧ pySplit tC1 = ([s1C1, s2C1].map pySplit).flatten
    ∧ (pySplit tC1).length = 1010 := by
  refine ⟨?_, ?_, ?_⟩
  · rw [createChunksFrom_C1]
    rfl
  · rw [pySplit_tC1]
    simp only [List.map_cons, List.map_nil, pySplit_s1C1, pySplit_s2C1,
      List.flatten_cons, List.flatten_nil, List.append_nil]
  · rw [pySplit_tC1]
    simp only [List.length_append, List.length_replicate]

/-! ## Witnesses for the chunker theorems -/

theorem chunk_size_bounds_witness :
    (pySplit "alpha beta" = (["alpha beta"].map pySplit).flatten)
    ∧ ((∀ c ∈ createChunksFrom "alpha beta" "S" ["alpha beta"],
          c.word_count ≤ chunkBound ["alpha beta"])
      ∧ (∀ c ∈ (createChunksFrom "alpha beta" "S" ["alpha beta"]).drop 1,
          MIN_CHUNK_SIZE_WORDS ≤ c.word_count)
      ∧ ((pySplit "alpha beta").length < MIN_CHUNK_SIZE_WORDS →
          (0 < (pySplit "alpha beta").length →
            createChunksFrom "alpha beta" "S" ["alpha beta"]
              = [⟨"alpha beta", (pySplit "alpha beta").length, "S"⟩])
          ∧ ((pySplit "alpha beta").length = 0 →
            createChunksFrom "alpha beta" "S" ["alpha beta"] = []))) :=
  ⟨by decide, chunk_size_bounds "alpha beta" "S" ["alpha beta"] (by decide)⟩

theorem overlap_invariant_holds_witness :
    (pySplit "alpha beta" = (["alpha beta"].map pySplit).flatten)
    ∧ List.Chain' (overlapOK ["alpha beta"])
        (createChunksFrom "alpha beta" "S" ["alpha beta"]) :=
  ⟨by decide, overlap_invariant_holds "alpha beta" "S" ["alpha beta"] (by decide)⟩

theorem createChunks_fallback_witness :
    ((fun _ : String => (Except.error "boom" : Except String (List String)))
        "a. b" = Except.error "boom")
    ∧ createChunks (fun _ => Except.error "boom") "a. b" "S"
        = createChunksFrom "a. b" "S" (pySplitSep ". " "a. b") :=
  ⟨rfl, createChunks_fallback (fun _ => Except.error "boom") "a. b" "S" "boom" rfl⟩

theorem word_count_eq_split_length_witness :
    ((⟨"x y", 2, "S"⟩ : Chunk) ∈ createChunksFrom "x y" "S" ["x y"])
    ∧ (⟨"x y", 2, "S"⟩ : Chunk).word_count
        = (pySplit (⟨"x y", 2, "S"⟩ : Chunk).text).length :=
  ⟨by decide, word_count_eq_split_length "x y" "S" ["x y"] _ (by decide)⟩

/-! ## C9 witness: a fallback-tokenized run that discards its final buffer -/

/-- Sixty copies of `"w . "`: 120 words of section text whose fallback
sentence split on `'. '` keeps only the 60 `w` words. -/
def tC9 : String := String.join (List.replicate 60 "w . ")

set_option maxRecDepth 4000 in
theorem final_buffer_discarded_witness :
    (((pySplitSep ". " tC9).foldl (processSentence "S")
        ⟨[], [], 0⟩).current_chunk ≠ [])
    ∧ (((pySplitSep ". " tC9).foldl (processSentence "S")
        ⟨[], [], 0⟩).current_word_count < MIN_CHUNK_SIZE_WORDS)
    ∧ (MIN_CHUNK_SIZE_WORDS ≤ (pySplit tC9).length)
    ∧ createChunksFrom tC9 "S" (pySplitSep ". " tC9) =
        ((pySplitSep ". " tC9).foldl (processSentence "S") ⟨[], [], 0⟩).chunks :=
  ⟨by decide, by decide, by decide,
    final_buffer_discarded tC9 "S" (pySplitSep ". " tC9)
      (by decide) (by decide) (by decide)⟩

/-! ## Section cleaner (`ImprovedSEC10KProcessor.clean_section_text`)

The four `re.sub(..., '', ...)` passes are implemented character by
character: a generic scanner (`removeScan`) deletes every non-overlapping,
leftmost match reported by a matcher that receives the remaining suffix and
returns the length of the match at that position (our matchers never report
zero-length matches; a reported length `k` consumes `max k 1` characters,
which is identical for `k ≥ 1`). -/

/-- `re.sub(r'\s+', ' ', text)`: every maximal whitespace run becomes one
space.  `prevWS` records whether the previous character was whitespace. -/
def collapseWSAux : Bool → List Char → List Char
  | _, [] => []
  | prevWS, c :: rest =>
    if c.isWhitespace then
      if prevWS then collapseWSAux true rest
      else ' ' :: collapseWSAux true rest
    else c :: collapseWSAux false rest

/-- Whitespace collapsing on character lists. -/
def collapseWS (cs : List Char) : List Char := collapseWSAux false cs

/-- Generic `re.sub(pattern, '', text)` scanner; `tryM` reports the match
length at the current position, the `Nat` argument is the skip counter of
characters still to delete. -/
def removeScanAux (tryM : List Char → Option Nat) : List Char → Nat → List Char
  | [], _ => []
  | _ :: rest, k + 1 => removeScanAux tryM rest k
  | c :: rest, 0 =>
    match tryM (c :: rest) with
    | some k => removeScanAux tryM rest (k - 1)
    | none => c :: removeScanAux tryM rest 0

/-- Delete every leftmost non-overlapping match of `tryM`. -/
def removeScan (tryM : List Char → Option Nat) (cs : List Char) : List Char :=
  removeScanAux tryM cs 0

/-- The 17 characters of `'table of contents'`. -/
def tocChars : List Char :=
  ['t', 'a', 'b', 'l', 'e', ' ', 'o', 'f', ' ',
   'c', 'o', 'n', 't', 'e', 'n', 't', 's']

/-- Case-insensitive literal prefix test (`pat` is lowercase). -/
def lowerPrefixOf : List Char → List Char → Bool
  | [], _ => true
  | _ :: _, [] => false
  | p :: ps, c :: cs => p == c.toLower && lowerPrefixOf ps cs

/-- Matcher for `re.sub(r'Table of Contents', '', text, flags=re.IGNORECASE)`. -/
def tryToC (cs : List Char) : Option Nat :=
  if lowerPrefixOf tocChars cs then some tocChars.length else none

/-- Matcher for `re.sub(r'Page \d+', '', text)` (greedy digits). -/
def tryPage : List Char → Option Nat
  | c1 :: c2 :: c3 :: c4 :: c5 :: rest =>
    if c1 = 'P' ∧ c2 = 'a' ∧ c3 = 'g' ∧ c4 = 'e' ∧ c5 = ' ' then
      if (rest.takeWhile Char.isDigit).length > 0 then
        some (5 + (rest.takeWhile Char.isDigit).length)
      else none
    else none
  | _ => none

/-- Matcher for `re.sub(r'[-_]{3,}', '', text)` (a maximal run of at least
three dashes/underscores; the regex is greedy, so the whole run is removed). -/
def tryDashes (cs : List Char) : Option Nat :=
  let d := (cs.takeWhile fun c => c = '-' ∨ c = '_').length
  if d ≥ 3 then some d else none

/-- Position (from the start) of the last `'\n'` of a list, if any. -/
def lastNlPos : List Char → Option Nat
  | [] => none
  | c :: rest =>
    match lastNlPos rest with
    | some i => some (i + 1)
    | none => if c = '\n' then some 0 else none

/-- Matcher for `re.sub(r'\d+\s*$', '', text, flags=re.MULTILINE)`: a maximal
digit run, followed either by whitespace running to the end of the string
(`$` at end) or by whitespace up to a `'\n'` (`$` in MULTILINE mode matches
before a newline; the greedy `\s*` backtracks to the last such position). -/
def tryEolDigits (cs : List Char) : Option Nat :=
  let d := (cs.takeWhile Char.isDigit).length
  if d = 0 then none
  else
    let rest := cs.drop d
    let w := rest.takeWhile Char.isWhitespace
    if rest.length = w.length then some (d + w.length)
    else
      match lastNlPos w with
      | some i => some (d + i)
      | none => none

/-- `clean_section_text` from `process_10k_improved.py`: collapse whitespace,
remove `Table of Contents` (case-insensitively), `Page \d+` page numbers,
line-trailing digit runs, runs of three or more dashes/underscores, then
strip. -/
def clean_section_text (s : String) : String :=
  let t := collapseWS s.data
  let t := removeScan tryToC t
  let t := removeScan tryPage t
  let t := removeScan tryEolDigits t
  let t := removeScan tryDashes t
  String.mk (pyStripChars t)

/-! ## Facts about `collapseWS` and `pyStripChars` -/

/-- Adjacent characters are never both whitespace. -/
def NotBothWS (a b : Char) : Prop := ¬ (a.isWhitespace ∧ b.isWhitespace)

theorem collapseWSAux_ws_space :
    ∀ (l : List Char) (b : Bool), ∀ c ∈ collapseWSAux b l,
      c.isWhitespace → c = ' ' := by
  intro l
  induction l with
  | nil => intro b c hc; simp [collapseWSAux] at hc
  | cons a rest ih =>
    intro b c hc hws
    simp only [collapseWSAux] at hc
    by_cases ha : a.isWhitespace
    · rw [if_pos ha] at hc
      by_cases hb : b
      · rw [if_pos hb] at hc
        exact ih true c hc hws
      · rw [if_neg hb] at hc
        rcases List.mem_cons.mp hc with rfl | hc
        · rfl
        · exact ih true c hc hws
    · rw [if_neg ha] at hc
      rcases List.mem_cons.mp hc with rfl | hc
      · exact absurd hws ha
      · exact ih false c hc hws

theorem collapseWSAux_chain :
    ∀ l : List Char,
      List.Chain' NotBothWS (collapseWSAux true l)
      ∧ List.Chain' NotBothWS (collapseWSAux false l)
      ∧ (∀ x, (collapseWSAux true l).head? = some x → ¬ x.isWhitespace) := by
  intro l
  induction l with
  | nil => exact ⟨List.chain'_nil, List.chain'_nil, by simp [collapseWSAux]⟩
  | cons a rest ih =>
    obtain ⟨iht, ihf, ihh⟩ := ih
    by_cases ha : a.isWhitespace
    · have ht : collapseWSAux true (a :: rest) = collapseWSAux true rest := by
        simp only [collapseWSAux]
        rw [if_pos ha, if_pos (by decide)]
      have hf : collapseWSAux false (a :: rest) = ' ' :: collapseWSAux true rest := by
        simp only [collapseWSAux]
        rw [if_pos ha, if_neg (by decide)]
      refine ⟨ht ▸ iht, ?_, ?_⟩
      · rw [hf, List.chain'_cons']
        refine ⟨?_, iht⟩
        intro y hy
        intro hcon
        exact ihh y hy hcon.2
      · intro x hx
        rw [ht] at hx
        exact ihh x hx
    · have ht : collapseWSAux true (a :: rest) = a :: collapseWSAux false rest := by
        simp only [collapseWSAux]
        rw [if_neg ha]
      have hf : collapseWSAux false (a :: rest) = a :: collapseWSAux false rest := by
        simp only [collapseWSAux]
        rw [if_neg ha]
      have hchain : List.Chain' NotBothWS (a :: collapseWSAux false rest) := by
        rw [List.chain'_cons']
        refine ⟨?_, ihf⟩
        intro y _
        intro hcon
        exact ha hcon.1
      refine ⟨ht ▸ hchain, hf ▸ hchain, ?_⟩
      intro x hx
      rw [ht, List.head?_cons] at hx
      rcases Option.some_inj.mp hx.symm with rfl
      exact ha

theorem collapseWS_ws_space (l : List Char) :
    ∀ c ∈ collapseWS l, c.isWhitespace → c = ' ' :=
  collapseWSAux_ws_space l false

theorem collapseWS_chain (l : List Char) :
    List.Chain' NotBothWS (collapseWS l) :=
  (collapseWSAux_chain l).2.1

theorem collapseWS_no_nl (l : List Char) : ∀ c ∈ collapseWS l, c ≠ '\n' := by
  intro c hc hcon
  have := collapseWS_ws_space l c hc (by rw [hcon]; decide)
  rw [hcon] at this
  exact absurd this (by decide)

theorem collapseWS_id (l : List Char)
    (h1 : ∀ c ∈ l, c.isWhitespace → c = ' ')
    (h2 : List.Chain' NotBothWS l) : collapseWS l = l := by
  induction l with
  | nil => rfl
  | cons a rest ih =>
    by_cases ha : a.isWhitespace
    · have ha' : a = ' ' := h1 a (by simp) ha
      have hhead : ∀ y ∈ rest.head?, ¬ y.isWhitespace := by
        intro y hy
        have := (List.chain'_cons'.mp h2).1 y hy
        intro hwy
        exact this ⟨ha, hwy⟩
      have htail : collapseWSAux false rest = rest :=
        ih (fun c hc => h1 c (by simp [hc])) (List.chain'_cons'.mp h2).2
      show collapseWSAux false (a :: rest) = a :: rest
      simp only [collapseWSAux]
      rw [if_pos ha, if_neg (by decide)]
      cases hrest : rest with
      | nil => rw [ha']; rfl
      | cons d rest' =>
        have hd : ¬ d.isWhitespace := by
          apply hhead
          rw [hrest, List.head?_cons]
          rfl
        have : collapseWSAux true (d :: rest') = collapseWSAux false (d :: rest') := by
          simp only [collapseWSAux]
          rw [if_neg hd, if_neg hd]
        rw [this, ← hrest, htail, ha']
    · have htail : collapseWSAux false rest = rest :=
        ih (fun c hc => h1 c (by simp [hc])) (List.chain'_cons'.mp h2).2
      show collapseWSAux false (a :: rest) = a :: rest
      simp only [collapseWSAux]
      rw [if_neg ha]
      rw [htail]

theorem pyStripChars_sub (l : List Char) : pyStripChars l <:+: l := by
  have h1 : l.dropWhile Char.isWhitespace <:+ l := List.dropWhile_suffix _
  have h2 : pyStripChars l <+: l.dropWhile Char.isWhitespace := by
    rw [← List.reverse_suffix]
    simp only [pyStripChars, List.reverse_reverse]
    exact List.dropWhile_suffix _
  exact h2.isInfix.trans h1.isInfix

theorem pyStripChars_decomp (l : List Char) :
    ∃ a b, l = a ++ pyStripChars l ++ b ∧
      (∀ c ∈ a, c.isWhitespace) ∧ (∀ c ∈ b, c.isWhitespace) := by
  refine ⟨l.takeWhile Char.isWhitespace,
    (((l.dropWhile Char.isWhitespace).reverse).takeWhile Char.isWhitespace).reverse,
    ?_, ?_, ?_⟩
  · conv_lhs => rw [← List.takeWhile_append_dropWhile Char.isWhitespace l]
    rw [List.append_assoc]
    congr 1
    conv_lhs => rw [← List.reverse_reverse (l.dropWhile Char.isWhitespace)]
    conv_lhs =>
      rw [← List.takeWhile_append_dropWhile Char.isWhitespace
        (l.dropWhile Char.isWhitespace).reverse]
    rw [List.reverse_append]
    rfl
  · intro c hc
    exact List.mem_takeWhile_imp hc
  · intro c hc
    rw [List.mem_reverse] at hc
    exact List.mem_takeWhile_imp hc

theorem head_dropWhile_false (p : Char → Bool) (l : List Char) (x : Char)
    (hx : (l.dropWhile p).head? = some x) : p x = false := by
  have := List.head?_dropWhile_not p l
  rw [hx] at this
  exact this

theorem dropWhile_eq_self_of_head (p : Char → Bool) (l : List Char)
    (h : ∀ x, l.head? = some x → p x = false) : l.dropWhile p = l := by
  cases l with
  | nil => rfl
  | cons a rest =>
    rw [List.dropWhile_cons, if_neg ?_]
    rw [h a rfl]
    simp

theorem pyStripChars_idem (l : List Char) :
    pyStripChars (pyStripChars l) = pyStripChars l := by
  have hrev : (pyStripChars l).reverse =
      ((l.dropWhile Char.isWhitespace).reverse).dropWhile Char.isWhitespace := by
    simp only [pyStripChars, List.reverse_reverse]
  have h2 : (pyStripChars l).reverse.dropWhile Char.isWhitespace
      = (pyStripChars l).reverse := by
    apply dropWhile_eq_self_of_head
    intro x hx
    rw [hrev] at hx
    exact head_dropWhile_false _ _ _ hx
  have h1 : (pyStripChars l).dropWhile Char.isWhitespace = pyStripChars l := by
    apply dropWhile_eq_self_of_head
    intro x hx
    -- the head of the stripped list is the head of `dropWhile ws l`
    have hpre : pyStripChars l <+: l.dropWhile Char.isWhitespace := by
      rw [← List.reverse_suffix]
      simp only [pyStripChars, List.reverse_reverse]
      exact List.dropWhile_suffix _
    obtain ⟨t, ht⟩ := hpre
    cases hsl : pyStripChars l with
    | nil => rw [hsl] at hx; simp at hx
    | cons c rest =>
      rw [hsl] at hx ht
      rw [List.head?_cons] at hx
      rcases Option.some_inj.mp hx with rfl
      apply head_dropWhile_false Char.isWhitespace l
      rw [← ht]
      rfl
  show List.reverse (List.dropWhile Char.isWhitespace
      (List.reverse (List.dropWhile Char.isWhitespace (pyStripChars l))))
      = pyStripChars l
  rw [h1, h2, List.reverse_reverse]

/-! ## When a removal pass finds nothing, it is the identity -/

theorem removeScanAux_length (tryM : List Char → Option Nat) :
    ∀ (l : List Char) (k : Nat), (removeScanAux tryM l k).length ≤ l.length := by
  intro l
  induction l with
  | nil => intro k; cases k <;> simp [removeScanAux]
  | cons c rest ih =>
    intro k
    cases k with
    | succ k =>
      simp only [removeScanAux]
      exact le_trans (ih k) (by simp)
    | zero =>
      simp only [removeScanAux]
      cases htry : tryM (c :: rest) with
      | some k' =>
        exact le_trans (ih (k' - 1)) (by simp)
      | none =>
        simp only [List.length_cons]
        exact Nat.succ_le_succ (ih 0)

theorem removeScan_of_noMatch (tryM : List Char → Option Nat) :
    ∀ l : List Char, (∀ pre suf, l = pre ++ suf → suf ≠ [] → tryM suf = none) →
      removeScan tryM l = l := by
  intro l
  induction l with
  | nil => intro _; rfl
  | cons c rest ih =>
    intro h
    show removeScanAux tryM (c :: rest) 0 = c :: rest
    simp only [removeScanAux]
    rw [h [] (c :: rest) rfl (by simp)]
    have htl : removeScanAux tryM rest 0 = rest :=
      ih (fun pre suf hps hne => h (c :: pre) suf (by rw [hps]; rfl) hne)
    rw [htl]

theorem noMatch_of_removeScan_eq (tryM : List Char → Option Nat) :
    ∀ l : List Char, removeScan tryM l = l →
      ∀ pre suf, l = pre ++ suf → suf ≠ [] → tryM suf = none := by
  intro l
  induction l with
  | nil =>
    intro _ pre suf hps hne
    rcases List.append_eq_nil.mp hps.symm with ⟨_, rfl⟩
    exact absurd rfl hne
  | cons c rest ih =>
    intro heq pre suf hps hne
    have hnone : tryM (c :: rest) = none := by
      cases htry : tryM (c :: rest) with
      | none => rfl
      | some k =>
        exfalso
        have : removeScan tryM (c :: rest) = removeScanAux tryM rest (k - 1) := by
          show removeScanAux tryM (c :: rest) 0 = _
          simp only [removeScanAux, htry]
        rw [this] at heq
        have hlen := removeScanAux_length tryM rest (k - 1)
        have := congrArg List.length heq
        simp only [List.length_cons] at this
        omega
    have htail : removeScan tryM rest = rest := by
      have : removeScan tryM (c :: rest) = c :: removeScan tryM rest := by
        show removeScanAux tryM (c :: rest) 0 = _
        simp only [removeScanAux, hnone]
        rfl
      rw [this] at heq
      exact (List.cons_inj_right c).mp heq
    cases pre with
    | nil =>
      simp only [List.nil_append] at hps
      rw [← hps]
      exact hnone
    | cons p pre' =>
      rw [List.cons_append] at hps
      have hrest : rest = pre' ++ suf := (List.cons.injEq _ _ _ _).mp hps |>.2
      exact ih htail pre' suf hrest hne

/-! ## The matchers only match more text when the suffix is extended -/

theorem lowerPrefixOf_mono (p : List Char) :
    ∀ m r, lowerPrefixOf p m = true → lowerPrefixOf p (m ++ r) = true := by
  induction p with
  | nil => intro m r _; rfl
  | cons a p ih =>
    intro m r h
    cases m with
    | nil => simp [lowerPrefixOf] at h
    | cons c m =>
      simp only [lowerPrefixOf, Bool.and_eq_true] at h
      simp only [List.cons_append, lowerPrefixOf, Bool.and_eq_true]
      exact ⟨h.1, ih m r h.2⟩

theorem takeWhile_length_append_mono (p : Char → Bool) (m r : List Char) :
    (m.takeWhile p).length ≤ ((m ++ r).takeWhile p).length := by
  rw [List.takeWhile_append]
  by_cases h : (m.takeWhile p).length = m.length
  · rw [if_pos h, List.length_append]
    omega
  · rw [if_neg h]

theorem tryToC_none_of_append (suf b : List Char)
    (h : tryToC (suf ++ b) = none) : tryToC suf = none := by
  simp only [tryToC] at h ⊢
  by_cases hp : lowerPrefixOf tocChars suf = true
  · rw [if_pos (lowerPrefixOf_mono tocChars suf b hp)] at h
    simp at h
  · rw [if_neg hp]

theorem tryPage_none_of_append (suf b : List Char)
    (h : tryPage (suf ++ b) = none) : tryPage suf = none := by
  match suf with
  | [] => rfl
  | [c1] => rfl
  | [c1, c2] => rfl
  | [c1, c2, c3] => rfl
  | [c1, c2, c3, c4] => rfl
  | c1 :: c2 :: c3 :: c4 :: c5 :: rest =>
    simp only [List.cons_append, tryPage] at h ⊢
    by_cases hh : c1 = 'P' ∧ c2 = 'a' ∧ c3 = 'g' ∧ c4 = 'e' ∧ c5 = ' '
    · rw [if_pos hh] at h ⊢
      by_cases hd : (rest.takeWhile Char.isDigit).length > 0
      · exfalso
        have hmono := takeWhile_length_append_mono Char.isDigit rest b
        rw [if_pos (by omega)] at h
        simp at h
      · rw [if_neg hd]
    · rw [if_neg hh]

theorem tryDashes_none_of_append (suf b : List Char)
    (h : tryDashes (suf ++ b) = none) : tryDashes suf = none := by
  simp only [tryDashes] at h ⊢
  by_cases hd : (suf.takeWhile fun c => c = '-' ∨ c = '_').length ≥ 3
  · exfalso
    have hmono := takeWhile_length_append_mono
      (fun c => decide (c = '-' ∨ c = '_')) suf b
    rw [if_pos (by omega)] at h
    simp at h
  · rw [if_neg hd]

theorem lastNlPos_none (w : List Char) (h : ∀ c ∈ w, c ≠ '\n') :
    lastNlPos w = none := by
  induction w with
  | nil => rfl
  | cons c rest ih =>
    simp only [lastNlPos]
    rw [ih (fun d hd => h d (by simp [hd]))]
    rw [if_neg (h c (by simp))]

theorem digit_not_ws (c : Char) (h : c.isDigit = true) :
    c.isWhitespace = false := by
  by_contra hcon
  have hws : c.isWhitespace = true := by
    cases hw : c.isWhitespace
    · exact absurd hw hcon
    · rfl
  simp only [Char.isWhitespace, Bool.or_eq_true, decide_eq_true_eq] at hws
  obtain rfl | rfl | rfl | rfl : c = ' ' ∨ c = '\t' ∨ c = '\n' ∨ c = '\x0d' := by
    tauto
  all_goals simp [Char.isDigit] at h

theorem takeWhile_all (p : Char → Bool) (l : List Char)
    (h : ∀ c ∈ l, p c = true) : l.takeWhile p = l :=
  List.takeWhile_eq_self_iff.mpr h

theorem takeWhile_nil_of_none (p : Char → Bool) (l : List Char)
    (h : ∀ c ∈ l, p c = false) : l.takeWhile p = [] := by
  cases l with
  | nil => rfl
  | cons c rest =>
    rw [List.takeWhile_cons, if_neg (by rw [h c (by simp)]; simp)]

theorem tryEolDigits_none_of_append (suf b : List Char)
    (hb : ∀ c ∈ b, c.isWhitespace)
    (hnl : ∀ c ∈ suf, c ≠ '\n')
    (h : tryEolDigits (suf ++ b) = none) : tryEolDigits suf = none := by
  simp only [tryEolDigits] at h ⊢
  by_cases hd0 : (suf.takeWhile Char.isDigit).length = 0
  · rw [if_pos hd0]
  · rw [if_neg hd0]
    -- the digit run of `suf ++ b` is exactly the digit run of `suf`
    have hbnodigit : ∀ c ∈ b, Char.isDigit c = false := by
      intro c hc
      cases hdig : c.isDigit
      · rfl
      · have := digit_not_ws c hdig
        rw [hb c hc] at this
        cases this
    have hdigits : (suf ++ b).takeWhile Char.isDigit = suf.takeWhile Char.isDigit := by
      rw [List.takeWhile_append]
      by_cases hfull : (suf.takeWhile Char.isDigit).length = suf.length
      · rw [if_pos hfull, takeWhile_nil_of_none _ b hbnodigit, List.append_nil]
        exact (( List.takeWhile_prefix _).eq_of_length hfull).symm
      · rw [if_neg hfull]
    have hdlen : (suf.takeWhile Char.isDigit).length ≤ suf.length := by
      have hpre : suf.takeWhile Char.isDigit <+: suf := List.takeWhile_prefix _
      exact hpre.length_le
    rw [hdigits, if_neg hd0] at h
    -- the whitespace run after the digits
    by_cases hall : (suf.drop ((suf.takeWhile Char.isDigit).length)).length
        = ((suf.drop ((suf.takeWhile Char.isDigit).length)).takeWhile
            Char.isWhitespace).length
    · exfalso
      -- then the run in `suf ++ b` reaches the end of the string
      have hrest1_ws : ∀ c ∈ suf.drop ((suf.takeWhile Char.isDigit).length),
          c.isWhitespace = true := by
        have hpre : (suf.drop ((suf.takeWhile Char.isDigit).length)).takeWhile
            Char.isWhitespace <+: suf.drop ((suf.takeWhile Char.isDigit).length) :=
          List.takeWhile_prefix _
        have := hpre.eq_of_length hall.symm
        intro c hc
        rw [← this] at hc
        exact List.mem_takeWhile_imp hc
      have hdrop2 : (suf ++ b).drop ((suf.takeWhile Char.isDigit).length)
          = suf.drop ((suf.takeWhile Char.isDigit).length) ++ b :=
        List.drop_append_of_le_length hdlen
      have hw2 : ((suf ++ b).drop ((suf.takeWhile Char.isDigit).length)).takeWhile
          Char.isWhitespace = (suf ++ b).drop ((suf.takeWhile Char.isDigit).length) := by
        rw [hdrop2]
        apply takeWhile_all
        intro c hc
        rcases List.mem_append.mp hc with hc | hc
        · exact hrest1_ws c hc
        · exact hb c hc
      have hcond2 : ((suf ++ b).drop ((suf.takeWhile Char.isDigit).length)).length
          = (((suf ++ b).drop ((suf.takeWhile Char.isDigit).length)).takeWhile
              Char.isWhitespace).length := by
        rw [hw2]
      rw [if_pos hcond2] at h
      simp at h
    · rw [if_neg hall]
      rw [lastNlPos_none]
      intro c hc
      have hc' : c ∈ suf.drop ((suf.takeWhile Char.isDigit).length) :=
        ( List.takeWhile_prefix _).subset hc
      exact hnl c (List.drop_subset _ _ hc')

/-! ## C3: the section cleaner is not idempotent in general (counterexample),
but is idempotent on inputs whose collapsed text contains no removable
boilerplate (amended) -/

/-- C3 (counterexample).  Removing the (case-insensitive) literal
`Table of Contents` can splice a new occurrence together:
on `"Table of Table of ContentsContents"` one application yields
`"Table of Contents"`, a second application yields `""`. -/
theorem clean_section_text_not_idempotent :
    clean_section_text (clean_section_text "Table of Table of ContentsContents")
      ≠ clean_section_text "Table of Table of ContentsContents"
    ∧ clean_section_text "Table of Table of ContentsContents"
        = "Table of Contents"
    ∧ clean_section_text (clean_section_text "Table of Table of ContentsContents")
        = "" := by
  refine ⟨by decide, by decide, by decide⟩

/-- C3 (amended).  `clean_section_text` is idempotent on every input whose
whitespace-collapsed text contains none of the removable patterns — that is,
whenever the four removal passes have nothing to delete.  (In general a
deletion can create a new removable occurrence or a double space, and a second
application differs, as the counterexample shows.) -/
theorem clean_section_text_idempotent_of_clean (s : String)
    (h1 : removeScan tryToC (collapseWS s.data) = collapseWS s.data)
    (h2 : removeScan tryPage (collapseWS s.data) = collapseWS s.data)
    (h3 : removeScan tryEolDigits (collapseWS s.data) = collapseWS s.data)
    (h4 : removeScan tryDashes (collapseWS s.data) = collapseWS s.data) :
    clean_section_text (clean_section_text s) = clean_section_text s := by
  have hclean1 : clean_section_text s
      = String.mk (pyStripChars (collapseWS s.data)) := by
    simp only [clean_section_text]
    rw [h1, h2, h3, h4]
  rw [hclean1]
  have hInf : pyStripChars (collapseWS s.data) <:+: collapseWS s.data :=
    pyStripChars_sub _
  have ht_ws : ∀ c ∈ pyStripChars (collapseWS s.data),
      c.isWhitespace → c = ' ' :=
    fun c hc => collapseWS_ws_space s.data c (hInf.subset hc)
  have ht_chain : List.Chain' NotBothWS (pyStripChars (collapseWS s.data)) :=
    List.Chain'.infix (collapseWS_chain s.data) hInf
  have ht_nonl : ∀ c ∈ pyStripChars (collapseWS s.data), c ≠ '\n' :=
    fun c hc => collapseWS_no_nl s.data c (hInf.subset hc)
  obtain ⟨a, b, hdecomp, _, hb_ws⟩ := pyStripChars_decomp (collapseWS s.data)
  have hsplit : ∀ pre suf, pyStripChars (collapseWS s.data) = pre ++ suf →
      collapseWS s.data = (a ++ pre) ++ (suf ++ b) := by
    intro pre suf hps
    rw [hdecomp, hps]
    simp only [List.append_assoc]
  have hsufne : ∀ (suf : List Char), suf ≠ [] → suf ++ b ≠ [] := by
    intro suf hne hcon
    exact hne (List.append_eq_nil.mp hcon).1
  have htoc : removeScan tryToC (pyStripChars (collapseWS s.data))
      = pyStripChars (collapseWS s.data) := by
    apply removeScan_of_noMatch
    intro pre suf hps hne
    exact tryToC_none_of_append suf b
      (noMatch_of_removeScan_eq tryToC _ h1 (a ++ pre) (suf ++ b)
        (hsplit pre suf hps) (hsufne suf hne))
  have hpage : removeScan tryPage (pyStripChars (collapseWS s.data))
      = pyStripChars (collapseWS s.data) := by
    apply removeScan_of_noMatch
    intro pre suf hps hne
    exact tryPage_none_of_append suf b
      (noMatch_of_removeScan_eq tryPage _ h2 (a ++ pre) (suf ++ b)
        (hsplit pre suf hps) (hsufne suf hne))
  have heol : removeScan tryEolDigits (pyStripChars (collapseWS s.data))
      = pyStripChars (collapseWS s.data) := by
    apply removeScan_of_noMatch
    intro pre suf hps hne
    refine tryEolDigits_none_of_append suf b hb_ws ?_
      (noMatch_of_removeScan_eq tryEolDigits _ h3 (a ++ pre) (suf ++ b)
        (hsplit pre suf hps) (hsufne suf hne))
    intro c hc
    exact ht_nonl c (by rw [hps]; exact List.mem_append_right pre hc)
  have hdash : removeScan tryDashes (pyStripChars (collapseWS s.data))
      = pyStripChars (collapseWS s.data) := by
    apply removeScan_of_noMatch
    intro pre suf hps hne
    exact tryDashes_none_of_append suf b
      (noMatch_of_removeScan_eq tryDashes _ h4 (a ++ pre) (suf ++ b)
        (hsplit pre suf hps) (hsufne suf hne))
  show clean_section_text (String.mk (pyStripChars (collapseWS s.data)))
      = String.mk (pyStripChars (collapseWS s.data))
  simp only [clean_section_text]
  rw [collapseWS_id _ ht_ws ht_chain, htoc, hpage, heol, hdash,
    pyStripChars_idem]

/-- Witness for the amended C3 theorem at a concrete clean input. -/
theorem clean_section_text_idempotent_witness :
    (removeScan tryToC (collapseWS ("hello world" : String).data)
        = collapseWS ("hello world" : String).data)
    ∧ (removeScan tryPage (collapseWS ("hello world" : String).data)
        = collapseWS ("hello world" : String).data)
    ∧ (removeScan tryEolDigits (collapseWS ("hello world" : String).data)
        = collapseWS ("hello world" : String).data)
    ∧ (removeScan tryDashes (collapseWS ("hello world" : String).data)
        = collapseWS ("hello world" : String).data)
    ∧ clean_section_text (clean_section_text "hello world")
        = clean_section_text "hello world" :=
  ⟨by decide, by decide, by decide, by decide,
    clean_section_text_idempotent_of_clean "hello world"
      (by decide) (by decide) (by decide) (by decide)⟩

/-! ## Section locator (`ImprovedSEC10KProcessor.extract_sections`)

The `re` library is external; `finditer` is modelled as a function argument
returning the list of match start offsets of a pattern in a text, in scan
order, and `searchEnd` as a function returning the offset of the first match
of the end-marker pattern `(SIGNATURES|EXHIBIT\s+INDEX|^ITEM\s+15\.)` in a
given string, if any. -/

/-- Python `text[start:]`. -/
def pyDrop (s : String) (n : Nat) : String := String.mk (s.data.drop n)

/-- The `SECTION_PATTERNS` table of `process_10k_improved.py`: regex source
text and canonical section name, in SEC item order. -/
def SECTION_PATTERNS : List (String × String) := [
  ("ITEM\\s*1\\s*[\\.—–\\-]?\\s*B?USINESS", "Item 1 - Business"),
  ("ITEM\\s*1\\s*A\\s*[\\.—–\\-]?\\s*RISK\\s*FACTORS?", "Item 1A - Risk Factors"),
  ("ITEM\\s*1\\s*B\\s*[\\.—–\\-]?\\s*UNRESOLVED\\s*STAFF\\s*COMMENTS?",
    "Item 1B - Unresolved Staff Comments"),
  ("ITEM\\s*1\\s*C\\s*[\\.—–\\-]?\\s*CYBERSECURITY", "Item 1C - Cybersecurity"),
  ("ITEM\\s*2\\s*[\\.—–\\-]?\\s*PROPERTIES", "Item 2 - Properties"),
  ("ITEM\\s*3\\s*[\\.—–\\-]?\\s*LEGAL\\s*PROCEEDINGS?", "Item 3 - Legal Proceedings"),
  ("ITEM\\s*4\\s*[\\.—–\\-]?\\s*MINE\\s*SAFETY", "Item 4 - Mine Safety Disclosures"),
  ("ITEM\\s*5\\s*[\\.—–\\-]?\\s*MARKET\\s*FOR", "Item 5 - Market Information"),
  ("ITEM\\s*6\\s*[\\.—–\\-]?\\s*(?:\\[?RESERVED\\]?|SELECTED\\s*FINANCIAL)",
    "Item 6 - Selected Financial Data"),
  ("ITEM\\s*7\\s*[\\.—–\\-]?\\s*MANAGEMENT", "Item 7 - MD&A"),
  ("ITEM\\s*7\\s*A\\s*[\\.—–\\-]?\\s*QUANTITATIVE", "Item 7A - Market Risk"),
  ("ITEM\\s*8\\s*[\\.—–\\-]?\\s*FINANCIAL\\s*STATEMENTS?",
    "Item 8 - Financial Statements"),
  ("ITEM\\s*9\\s*[\\.—–\\-]?\\s*CHANGES?\\s*IN", "Item 9 - Changes in Accountants"),
  ("ITEM\\s*9\\s*A\\s*[\\.—–\\-]?\\s*CONTROLS?\\s*AND\\s*PROCEDURES?",
    "Item 9A - Controls and Procedures"),
  ("ITEM\\s*9\\s*B\\s*[\\.—–\\-]?\\s*OTHER\\s*INFORMATION",
    "Item 9B - Other Information"),
  ("ITEM\\s*9\\s*C\\s*[\\.—–\\-]?\\s*DISCLOSURE\\s*REGARDING",
    "Item 9C - Foreign Jurisdictions")]

/-- The `found_sections` list: for each pattern with at least one match, the
start offset of the LAST match (`matches[-1]`, to skip the table of
contents), paired with the canonical name, in pattern order. -/
def foundSections (finditer : String → String → List Nat) (text : String) :
    List (Nat × String) :=
  SECTION_PATTERNS.filterMap (fun pn =>
    match finditer pn.1 text with
    | [] => none
    | m :: ms => some ((m :: ms).getLast (List.cons_ne_nil m ms), pn.2))

/-- `found_sections.sort(key=lambda x: x[0])`: Python's stable ascending
sort, modelled by stable insertion sort. -/
def sortFound (l : List (Nat × String)) : List (Nat × String) :=
  l.insertionSort (fun a b => a.1 ≤ b.1)

/-- One extracted section span: `[start, stop)` plus the canonical name. -/
structure SectionSpan where
  start : Nat
  stop : Nat
  name : String
deriving DecidableEq, Repr

/-- End offset of the LAST section: the first end-marker match in
`text[start:]` if any, else `min(start + 500000, len(text))`. -/
def sectionEnd (searchEnd : String → Option Nat) (text : String) (start : Nat) :
    Nat :=
  match searchEnd (pyDrop text start) with
  | some off => start + off
  | none => min (start + 500000) text.length

/-- The span computation of the `for i, (start, name) in enumerate(...)` loop:
each section ends where the next begins; the last uses `sectionEnd`. -/
def spansOf (searchEnd : String → Option Nat) (text : String) :
    List (Nat × String) → List SectionSpan
  | [] => []
  | [(s, n)] => [⟨s, sectionEnd searchEnd text s, n⟩]
  | (s, n) :: (s', n') :: rest =>
      ⟨s, s', n⟩ :: spansOf searchEnd text ((s', n') :: rest)

/-- The section spans produced by `extract_sections` (before the short-text
filter on the returned dictionary). -/
def extractSectionSpans (finditer : String → String → List Nat)
    (searchEnd : String → Option Nat) (text : String) : List SectionSpan :=
  spansOf searchEnd text (sortFound (foundSections finditer text))

/-- `extract_sections` itself: slice each span out of the text, strip and
clean it, and keep it (keyed by canonical name) only if longer than 50
characters. -/
def extractSections (finditer : String → String → List Nat)
    (searchEnd : String → Option Nat) (text : String) : List (String × String) :=
  (extractSectionSpans finditer searchEnd text).filterMap (fun sp =>
    let cleaned := clean_section_text (pyStrip (pySlice text sp.start sp.stop))
    if cleaned.length > 50 then some (sp.name, cleaned) else none)

/-! ## C5: the computed spans tile the covered interval -/

theorem spansOf_facts (searchEnd : String → Option Nat) (text : String) :
    ∀ l : List (Nat × String),
      List.Pairwise (fun a b : Nat × String => a.1 ≤ b.1) l →
      (∀ x ∈ l, x.1 ≤ text.length) →
      (∀ sp ∈ spansOf searchEnd text l, sp.start ≤ sp.stop)
      ∧ List.Chain' (fun a b => a.stop = b.start) (spansOf searchEnd text l)
      ∧ (spansOf searchEnd text l).map SectionSpan.start = l.map Prod.fst := by
  intro l
  induction l with
  | nil => intro _ _; exact ⟨by simp [spansOf], by simp [spansOf], by simp [spansOf]⟩
  | cons hd tl ih =>
    intro hsorted hlen
    cases tl with
    | nil =>
      refine ⟨?_, ?_, ?_⟩
      · intro sp hsp
        rcases List.mem_singleton.mp hsp with rfl
        show hd.1 ≤ sectionEnd searchEnd text hd.1
        simp only [sectionEnd]
        cases searchEnd (pyDrop text hd.1) with
        | some off => simp
        | none =>
          simp only
          have := hlen hd (by simp)
          omega
      · exact List.chain'_singleton _
      · rfl
    | cons hd2 tl2 =>
      have hsorted2 : List.Pairwise (fun a b : Nat × String => a.1 ≤ b.1)
          (hd2 :: tl2) := (List.pairwise_cons.mp hsorted).2
      have hlen2 : ∀ x ∈ hd2 :: tl2, x.1 ≤ text.length :=
        fun x hx => hlen x (by simp [hx])
      obtain ⟨ih1, ih2, ih3⟩ := ih hsorted2 hlen2
      have hhd : hd.1 ≤ hd2.1 :=
        (List.pairwise_cons.mp hsorted).1 hd2 (by simp)
      have hspanseq : spansOf searchEnd text (hd :: hd2 :: tl2)
          = ⟨hd.1, hd2.1, hd.2⟩ :: spansOf searchEnd text (hd2 :: tl2) := by
        show spansOf searchEnd text ((hd.1, hd.2) :: (hd2.1, hd2.2) :: tl2)
          = _
        rfl
      refine ⟨?_, ?_, ?_⟩
      · intro sp hsp
        rw [hspanseq] at hsp
        rcases List.mem_cons.mp hsp with rfl | hsp
        · exact hhd
        · exact ih1 sp hsp
      · rw [hspanseq, List.chain'_cons']
        refine ⟨?_, ih2⟩
        intro y hy
        -- the head of the remaining spans starts at hd2.1
        have : (spansOf searchEnd text (hd2 :: tl2)).map SectionSpan.start
            = hd2.1 :: tl2.map Prod.fst := by
          rw [ih3]
          rfl
        cases hsp2 : spansOf searchEnd text (hd2 :: tl2) with
        | nil => rw [hsp2] at hy; simp at hy
        | cons z zs =>
          rw [hsp2] at hy this
          simp only [List.head?_cons, Option.mem_def, Option.some_inj] at hy
          simp only [List.map_cons, List.cons.injEq] at this
          subst hy
          show SectionSpan.stop ⟨hd.1, hd2.1, hd.2⟩ = z.start
          exact this.1.symm
      · rw [hspanseq]
        simp only [List.map_cons, ih3]

theorem perm_sortFound (l : List (Nat × String)) : (sortFound l).Perm l :=
  List.perm_insertionSort _ l

theorem sorted_sortFound (l : List (Nat × String)) :
    List.Pairwise (fun a b : Nat × String => a.1 ≤ b.1) (sortFound l) := by
  haveI : IsTotal (Nat × String) (fun a b => a.1 ≤ b.1) :=
    ⟨fun a b => Nat.le_total a.1 b.1⟩
  haveI : IsTrans (Nat × String) (fun a b => a.1 ≤ b.1) :=
    ⟨fun a b c hab hbc => le_trans hab hbc⟩
  exact List.sorted_insertionSort _ l

theorem foundSections_start_le (finditer : String → String → List Nat)
    (text : String)
    (hstart : ∀ p, ∀ m ∈ finditer p text, m ≤ text.length) :
    ∀ x ∈ foundSections finditer text, x.1 ≤ text.length := by
  intro x hx
  simp only [foundSections, List.mem_filterMap] at hx
  obtain ⟨pn, _, hpn⟩ := hx
  cases heq : finditer pn.1 text with
  | nil => rw [heq] at hpn; simp at hpn
  | cons m ms =>
    rw [heq] at hpn
    simp only [Option.some_inj] at hpn
    have hmem : (m :: ms).getLast (List.cons_ne_nil m ms) ∈ finditer pn.1 text := by
      rw [heq]
      exact List.getLast_mem _
    have := hstart pn.1 _ hmem
    rw [← hpn]
    exact this

/-- C5.  For every filing text and match data, the section spans computed by
`extract_sections` — ordered by start offset — are contiguous (each span ends
exactly where the next begins), non-overlapping, and cover exactly
`[first.start, last.stop]`: every span satisfies `start ≤ stop`, consecutive
spans satisfy `stop = next.start`, and the spans are ordered by start
offset. -/
theorem section_spans_tile (finditer : String → String → List Nat)
    (searchEnd : String → Option Nat) (text : String)
    (hstart : ∀ p, ∀ m ∈ finditer p text, m ≤ text.length) :
    (∀ sp ∈ extractSectionSpans finditer searchEnd text, sp.start ≤ sp.stop)
    ∧ List.Chain' (fun a b => a.stop = b.start)
        (extractSectionSpans finditer searchEnd text)
    ∧ List.Pairwise (fun a b => a.start ≤ b.start)
        (extractSectionSpans finditer searchEnd text) := by
  have hsorted := sorted_sortFound (foundSections finditer text)
  have hlen : ∀ x ∈ sortFound (foundSections finditer text), x.1 ≤ text.length := by
    intro x hx
    exact foundSections_start_le finditer text hstart x
      ((perm_sortFound _).mem_iff.mp hx)
  obtain ⟨h1, h2, h3⟩ := spansOf_facts searchEnd text _ hsorted hlen
  refine ⟨h1, h2, ?_⟩
  have : List.Pairwise (fun a b : Nat => a ≤ b)
      ((extractSectionSpans finditer searchEnd text).map SectionSpan.start) := by
    show List.Pairwise (fun a b : Nat => a ≤ b)
      ((spansOf searchEnd text (sortFound (foundSections finditer text))).map
        SectionSpan.start)
    rw [h3]
    exact List.pairwise_map.mpr hsorted
  exact List.pairwise_map.mp this

/-! ## C7: the LAST match of each pattern is recorded -/

theorem sorted_le_getLast? :
    ∀ l : List Nat, List.Sorted (· ≤ ·) l →
      ∀ a, l.getLast? = some a → ∀ x ∈ l, x ≤ a := by
  intro l
  induction l with
  | nil => intro _ a ha; simp at ha
  | cons m ms ih =>
    intro hsorted a ha x hx
    cases ms with
    | nil =>
      rcases List.mem_singleton.mp hx with rfl
      simp only [List.getLast?_singleton, Option.some_inj] at ha
      omega
    | cons m2 ms2 =>
      rw [List.getLast?_cons_cons] at ha
      have ih2 := ih (List.Sorted.of_cons hsorted) a ha
      rcases List.mem_cons.mp hx with rfl | hx
      · have h1 : x ≤ m2 := (List.pairwise_cons.mp hsorted).1 m2 (by simp)
        have h2 : m2 ≤ a := ih2 m2 (by simp)
        omega
      · exact ih2 x hx

/-- C7.  For every rule `(pattern, name)` of `SECTION_PATTERNS` whose pattern
matches the filing text at least once, `extract_sections` records as the
section's start offset the start of the LAST match (`matches[-1]`) — in
particular (since `re.finditer` yields matches in ascending positions) an
offset that is at least every other match start, not the first one. -/
theorem last_match_start_recorded (finditer : String → String → List Nat)
    (text p n : String) (hp : (p, n) ∈ SECTION_PATTERNS)
    (m : Nat) (ms : List Nat) (heq : finditer p text = m :: ms)
    (hsorted : List.Sorted (· ≤ ·) (m :: ms)) :
    ∃ s, (s, n) ∈ foundSections finditer text ∧ s ∈ finditer p text ∧
      ∀ x ∈ finditer p text, x ≤ s := by
  refine ⟨(m :: ms).getLast (List.cons_ne_nil m ms), ?_, ?_, ?_⟩
  · simp only [foundSections, List.mem_filterMap]
    refine ⟨(p, n), hp, ?_⟩
    rw [heq]
  · rw [heq]
    exact List.getLast_mem _
  · intro x hx
    rw [heq] at hx
    exact sorted_le_getLast? (m :: ms) hsorted _
      (List.getLast?_eq_getLast _ (List.cons_ne_nil m ms)) x hx

/-- Witness for C7: a match-offset function with two matches (2 and 10) for
the Item 1 pattern; the recorded offset is 10, the last match, not the
first. -/
theorem last_match_start_recorded_witness :
    ((fun p _ : String => if p = "ITEM\\s*1\\s*[\\.—–\\-]?\\s*B?USINESS"
        then [2, 10] else []) "ITEM\\s*1\\s*[\\.—–\\-]?\\s*B?USINESS" "txt"
      = [2, 10])
    ∧ (("ITEM\\s*1\\s*[\\.—–\\-]?\\s*B?USINESS", "Item 1 - Business")
        ∈ SECTION_PATTERNS)
    ∧ List.Sorted (· ≤ ·) [2, 10]
    ∧ ∃ s, (s, "Item 1 - Business") ∈ foundSections
        (fun p _ : String => if p = "ITEM\\s*1\\s*[\\.—–\\-]?\\s*B?USINESS"
          then [2, 10] else []) "txt"
      ∧ s ∈ (fun p _ : String => if p = "ITEM\\s*1\\s*[\\.—–\\-]?\\s*B?USINESS"
          then [2, 10] else []) "ITEM\\s*1\\s*[\\.—–\\-]?\\s*B?USINESS" "txt"
      ∧ ∀ x ∈ (fun p _ : String => if p = "ITEM\\s*1\\s*[\\.—–\\-]?\\s*B?USINESS"
          then [2, 10] else []) "ITEM\\s*1\\s*[\\.—–\\-]?\\s*B?USINESS" "txt",
          x ≤ s :=
  ⟨by decide, by decide, by decide,
    last_match_start_recorded _ "txt" _ "Item 1 - Business" (by decide)
      2 [10] (by decide) (by decide)⟩

/-- Witness for C5 at concrete match data: one pattern matching at offset 3
in a 10-character text, no end marker (the 500000-character cap applies). -/
theorem section_spans_tile_witness :
    (∀ p : String, ∀ m ∈ (fun p _ : String =>
        if p = "ITEM\\s*1\\s*[\\.—–\\-]?\\s*B?USINESS" then [3] else []) p
        "0123456789", m ≤ ("0123456789" : String).length)
    ∧ ((∀ sp ∈ extractSectionSpans
          (fun p _ : String =>
            if p = "ITEM\\s*1\\s*[\\.—–\\-]?\\s*B?USINESS" then [3] else [])
          (fun _ => none) "0123456789", sp.start ≤ sp.stop)
      ∧ List.Chain' (fun a b => a.stop = b.start)
          (extractSectionSpans
            (fun p _ : String =>
              if p = "ITEM\\s*1\\s*[\\.—–\\-]?\\s*B?USINESS" then [3] else [])
            (fun _ => none) "0123456789")
      ∧ List.Pairwise (fun a b => a.start ≤ b.start)
          (extractSectionSpans
            (fun p _ : String =>
              if p = "ITEM\\s*1\\s*[\\.—–\\-]?\\s*B?USINESS" then [3] else [])
            (fun _ => none) "0123456789")) := by
  have hstart : ∀ p : String, ∀ m ∈ (fun p _ : String =>
      if p = "ITEM\\s*1\\s*[\\.—–\\-]?\\s*B?USINESS" then [3] else []) p
      "0123456789", m ≤ ("0123456789" : String).length := by
    intro p m hm
    simp only at hm
    by_cases hp : p = "ITEM\\s*1\\s*[\\.—–\\-]?\\s*B?USINESS"
    · rw [if_pos hp] at hm
      rcases List.mem_singleton.mp hm with rfl
      decide
    · rw [if_neg hp] at hm
      simp at hm
  exact ⟨hstart, section_spans_tile _ _ "0123456789" hstart⟩

/-! ## Embedding generation (`generate_embeddings.py`)

The OpenAI client is external: the batch call
`self.client.embeddings.create(...)` is a function argument
`api : List String → List E` over an abstract embedding type `E`.  Money
amounts are exact rationals (the Python floats `1.3`, `0.00013` and `0.10`
become `13/10`, `13/100000` and `1/10`; no claim here depends on
floating-point rounding).  File writes are recorded as booleans, the progress
pickle as the list of saved snapshots. -/

/-- `BATCH_SIZE` from `generate_embeddings.py`. -/
def BATCH_SIZE : Nat := 2048

/-- `SAVE_INTERVAL` from `generate_embeddings.py`. -/
def SAVE_INTERVAL : Nat := 100

/-- `COST_PER_1K_TOKENS = 0.00013`. -/
def COST_PER_1K_TOKENS : ℚ := 13 / 100000

/-- `APPROX_TOKENS_PER_WORD = 1.3`. -/
def APPROX_TOKENS_PER_WORD : ℚ := 13 / 10

/-- `COST_THRESHOLD = 0.10`. -/
def COST_THRESHOLD : ℚ := 1 / 10

/-- A chunk record of the chunks file, with its metadata fields used by
`generate_embeddings.py` and the (initially absent) `embedding` key. -/
structure EmbChunk (E : Type) where
  chunk_id : String
  chunk_index : Nat
  word_count : Nat
  text : String
  embedding : Option E
deriving DecidableEq

/-- `EmbeddingGenerator.estimate_cost`. -/
def estimate_cost {E : Type} (chunks : List (EmbChunk E)) : ℚ :=
  let total_words : ℚ := ((chunks.map fun c => c.word_count).sum : Nat)
  let estimated_tokens := total_words * APPROX_TOKENS_PER_WORD
  (estimated_tokens / 1000) * COST_PER_1K_TOKENS

/-- `range(0, len(chunks), BATCH_SIZE)` batching.  `acc` is the (reversed)
current batch and the `Nat` argument the remaining capacity of that batch;
structural recursion on the list so the function computes in the kernel. -/
def batchesOfAux {α : Type} (bs : Nat) : List α → List α → Nat → List (List α)
  | [], acc, _ => if acc.isEmpty then [] else [acc.reverse]
  | x :: xs, acc, k + 1 => batchesOfAux bs xs (x :: acc) k
  | x :: xs, acc, 0 => acc.reverse :: batchesOfAux bs xs [x] (bs - 1)

/-- Split a list into consecutive batches of `bs` elements (`bs ≥ 1`; Python
raises on a zero step). -/
def batchesOf {α : Type} (bs : Nat) (l : List α) : List (List α) :=
  batchesOfAux bs l [] bs

/-- Observable state of one `process_chunks_file` run: the texts sent to the
embedding API per batch, the chunks that received a freshly generated
embedding, the in-memory progress dictionary, the processed-chunk counter,
and every snapshot passed to `save_progress`. -/
structure EmbRun (E : Type) where
  apiCalls : List (List String)
  embedded : List (EmbChunk E)
  processedMap : List (String × E)
  processedCount : Nat
  saves : List (List (String × E))
deriving DecidableEq

/-- The `for i in range(0, len(chunks_to_process), BATCH_SIZE)` loop:
one API call per batch, embeddings zipped back onto the chunks, the progress
dictionary extended, and a snapshot saved whenever the running counter hits a
multiple of `SAVE_INTERVAL`. -/
def runBatches {E : Type} (api : List String → List E) :
    List (List (EmbChunk E)) → EmbRun E → EmbRun E
  | [], r => r
  | batch :: rest, r =>
    let texts := batch.map (fun c => c.text)
    let embeddings := api texts
    let paired := batch.zip embeddings
    let processedMap := r.processedMap ++ paired.map (fun pe => (pe.1.chunk_id, pe.2))
    let processedCount := r.processedCount + paired.length
    runBatches api rest
      { apiCalls := r.apiCalls ++ [texts]
        embedded := r.embedded ++
          paired.map (fun pe => { pe.1 with embedding := some pe.2 })
        processedMap := processedMap
        processedCount := processedCount
        saves := if processedCount % SAVE_INTERVAL = 0 then
            r.saves ++ [processedMap] else r.saves }

/-- Python's stable sort by `chunk_index`. -/
def sortByChunkIndex {E : Type} (l : List (EmbChunk E)) : List (EmbChunk E) :=
  l.insertionSort (fun a b => a.chunk_index ≤ b.chunk_index)

/-- Everything observable about one `process_chunks_file` call. -/
structure FileRunResult (E : Type) where
  run : EmbRun E
  cachedAssigned : List (EmbChunk E)
  outputChunks : List (EmbChunk E)
  wroteJson : Bool
  wroteParquet : Bool
  result : Option (String × String)

/-- `EmbeddingGenerator.process_chunks_file`: restore cached embeddings from
the resume file, estimate the cost of the rest, ask for confirmation when it
exceeds `COST_THRESHOLD` (`input()` is the `response` argument; the check is
`response.lower() != 'yes'`), and only then run the batch loop and write the
JSON and Parquet outputs. -/
def process_chunks_file {E : Type} (api : List String → List E)
    (cache : List (String × E)) (response : String) (initialCount : Nat)
    (chunks : List (EmbChunk E)) (jsonPath parquetPath : String) :
    FileRunResult E :=
  let chunks_with_embeddings := chunks.filterMap (fun c =>
    (cache.lookup c.chunk_id).map (fun e => { c with embedding := some e }))
  let chunks_to_process := chunks.filter (fun c =>
    (cache.lookup c.chunk_id).isNone)
  if chunks_to_process.isEmpty then
    { run := ⟨[], [], cache, initialCount, []⟩
      cachedAssigned := chunks_with_embeddings
      outputChunks := sortByChunkIndex chunks_with_embeddings
      wroteJson := true, wroteParquet := true
      result := some (jsonPath, parquetPath) }
  else
    if estimate_cost chunks_to_process > COST_THRESHOLD ∧
        pyLower response ≠ "yes" then
      { run := ⟨[], [], cache, initialCount, []⟩
        cachedAssigned := chunks_with_embeddings
        outputChunks := []
        wroteJson := false, wroteParquet := false
        result := none }
    else
      let r := runBatches api (batchesOf BATCH_SIZE chunks_to_process)
        ⟨[], [], cache, initialCount, []⟩
      { run := r
        cachedAssigned := chunks_with_embeddings
        outputChunks := sortByChunkIndex (chunks_with_embeddings ++ r.embedded)
        wroteJson := true, wroteParquet := true
        result := some (jsonPath, parquetPath) }

/-! ## C6: the cost gate -/

theorem estimate_cost_nil {E : Type} : estimate_cost ([] : List (EmbChunk E)) = 0 := by
  simp [estimate_cost]

/-- C6 (counterexample).  With the confirmation response `"YES"` — which is
not the string `'yes'` — and an estimated cost of `$0.169 > $0.10`,
`process_chunks_file` does NOT abort: the comparison is
`response.lower() != 'yes'`, so the embedding API is called. -/
theorem cost_gate_counterexample :
    (process_chunks_file (fun ts => ts.map fun _ => ()) [] "YES" 0
        [⟨"id0", 0, 1000000, "txt", none⟩] "o.json" "o.parquet").run.apiCalls
      = [["txt"]]
    ∧ estimate_cost (E := Unit) [⟨"id0", 0, 1000000, "txt", none⟩] > COST_THRESHOLD
    ∧ ("YES" : String) ≠ "yes" := by
  have hcost : estimate_cost (E := Unit) [⟨"id0", 0, 1000000, "txt", none⟩]
      > COST_THRESHOLD := by
    simp only [estimate_cost, APPROX_TOKENS_PER_WORD, COST_PER_1K_TOKENS,
      COST_THRESHOLD, List.map_cons, List.map_nil, List.sum_cons, List.sum_nil]
    norm_num
  refine ⟨?_, hcost, by decide⟩
  simp only [process_chunks_file]
  rw [if_neg (by decide), if_neg ?hgate]
  case hgate =>
    intro hcon
    exact hcon.2 (by decide)
  rfl

/-- C6 (amended).  If the estimated cost of the not-yet-processed chunks
exceeds `COST_THRESHOLD` and the confirmation response does not
case-insensitively equal `'yes'`, `process_chunks_file` aborts before any
embedding API call: `generate_embedding_batch` is never invoked, no chunk
receives a freshly generated embedding, no progress checkpoint is written,
no output file is created, and the only chunks carrying embeddings are those
restored from the pre-existing progress cache. -/
theorem cost_gate_aborts {E : Type} (api : List String → List E)
    (cache : List (String × E)) (response : String) (n0 : Nat)
    (chunks : List (EmbChunk E)) (jp pp : String)
    (hcost : estimate_cost (chunks.filter fun c =>
      (cache.lookup c.chunk_id).isNone) > COST_THRESHOLD)
    (hresp : pyLower response ≠ "yes") :
    (process_chunks_file api cache response n0 chunks jp pp).run.apiCalls = []
    ∧ (process_chunks_file api cache response n0 chunks jp pp).run.saves = []
    ∧ (process_chunks_file api cache response n0 chunks jp pp).run.embedded = []
    ∧ (process_chunks_file api cache response n0 chunks jp pp).wroteJson = false
    ∧ (process_chunks_file api cache response n0 chunks jp pp).wroteParquet = false
    ∧ (process_chunks_file api cache response n0 chunks jp pp).result = none
    ∧ ∀ c ∈ (process_chunks_file api cache response n0 chunks jp pp).cachedAssigned,
        (cache.lookup c.chunk_id).isSome := by
  have hne : ¬ (chunks.filter fun c => (cache.lookup c.chunk_id).isNone).isEmpty = true := by
    intro hcon
    rw [List.isEmpty_iff] at hcon
    rw [hcon, estimate_cost_nil] at hcost
    simp only [COST_THRESHOLD] at hcost
    norm_num at hcost
  have hcached : ∀ c ∈ chunks.filterMap (fun c =>
      (cache.lookup c.chunk_id).map (fun e => { c with embedding := some e })),
      (cache.lookup c.chunk_id).isSome := by
    intro c hc
    rw [List.mem_filterMap] at hc
    obtain ⟨a, _, ha⟩ := hc
    cases hl : cache.lookup a.chunk_id with
    | none => rw [hl] at ha; simp at ha
    | some e =>
      rw [hl] at ha
      have ha' : ({ a with embedding := some e } : EmbChunk E) = c := by
        simpa using ha
      rw [← ha']
      show (cache.lookup a.chunk_id).isSome = true
      rw [hl]
      rfl
  simp only [process_chunks_file]
  rw [if_neg hne, if_pos ⟨hcost, hresp⟩]
  exact ⟨rfl, rfl, rfl, rfl, rfl, rfl, hcached⟩

/-- Witness for the amended C6 theorem: response `"no"`, one million-word
chunk, empty resume cache. -/
theorem cost_gate_aborts_witness :
    (estimate_cost (([⟨"id0", 0, 1000000, "txt", none⟩] :
        List (EmbChunk Unit)).filter fun c =>
          ((([] : List (String × Unit))).lookup c.chunk_id).isNone)
      > COST_THRESHOLD)
    ∧ (pyLower "no" ≠ "yes")
    ∧ (process_chunks_file (fun ts => ts.map fun _ => ()) [] "no" 0
        [⟨"id0", 0, 1000000, "txt", none⟩] "o.json" "o.parquet").run.apiCalls = []
    ∧ (process_chunks_file (fun ts => ts.map fun _ => ()) [] "no" 0
        [⟨"id0", 0, 1000000, "txt", none⟩] "o.json" "o.parquet").result = none := by
  have hcost : estimate_cost (([⟨"id0", 0, 1000000, "txt", none⟩] :
      List (EmbChunk Unit)).filter fun c =>
        ((([] : List (String × Unit))).lookup c.chunk_id).isNone)
      > COST_THRESHOLD := by
    have hfilter : (([⟨"id0", 0, 1000000, "txt", none⟩] :
        List (EmbChunk Unit)).filter fun c =>
          ((([] : List (String × Unit))).lookup c.chunk_id).isNone)
        = [⟨"id0", 0, 1000000, "txt", none⟩] := rfl
    rw [hfilter]
    simp only [estimate_cost, APPROX_TOKENS_PER_WORD, COST_PER_1K_TOKENS,
      COST_THRESHOLD, List.map_cons, List.map_nil, List.sum_cons, List.sum_nil]
    norm_num
  have h := cost_gate_aborts (fun ts => ts.map fun _ => ())
    ([] : List (String × Unit)) "no" 0 [⟨"id0", 0, 1000000, "txt", none⟩]
    "o.json" "o.parquet" hcost (by decide)
  exact ⟨hcost, by decide, h.1, h.2.2.2.2.2.1⟩

/-! ## Metadata extraction (`ImprovedSEC10KProcessor.extract_metadata`)

The fixed `re.findall` patterns are implemented as position matchers driven
by a generic non-overlapping scanner that tracks the previous character (for
the `\b` word boundaries).  `re.findall` counts are the number of
non-overlapping leftmost matches.  NLTK's `sent_tokenize` (used for
`sentence_count`) is again an explicit function argument. -/

/-- Generic `re.findall` counter: `tryM prev suffix` returns the length of
the (never empty) match at this position, `prev` being the character just
before it.  Non-overlapping, leftmost, with a skip counter as before. -/
def scanCountAux (tryM : Option Char → List Char → Option Nat) :
    Option Char → List Char → Nat → Nat
  | _, [], _ => 0
  | _, c :: rest, k + 1 => scanCountAux tryM (some c) rest k
  | prev, c :: rest, 0 =>
    match tryM prev (c :: rest) with
    | some k => 1 + scanCountAux tryM (some c) rest (k - 1)
    | none => scanCountAux tryM (some c) rest 0

/-- Number of non-overlapping matches of `tryM` in `cs`. -/
def scanCount (tryM : Option Char → List Char → Option Nat)
    (cs : List Char) : Nat :=
  scanCountAux tryM none cs 0

/-- `[\d,]` character class. -/
def isDigitComma (c : Char) : Bool := c.isDigit || c = ','

/-- Length consumed by the optional fraction `(?:\.\d+)?`. -/
def matchOptFrac : List Char → Nat
  | '.' :: rest =>
    if (rest.takeWhile Char.isDigit).length > 0 then
      1 + (rest.takeWhile Char.isDigit).length
    else 0
  | _ => 0

/-- Length consumed by the optional scale `(?:\s*(?:million|billion|thousand))?`
(the words cannot begin with whitespace, so the greedy `\s*` either reaches a
scale word after all the whitespace or the whole group matches empty). -/
def matchScale (cs : List Char) : Nat :=
  let w := (cs.takeWhile Char.isWhitespace).length
  let rest := cs.drop w
  if ['m', 'i', 'l', 'l', 'i', 'o', 'n'].isPrefixOf rest then w + 7
  else if ['b', 'i', 'l', 'l', 'i', 'o', 'n'].isPrefixOf rest then w + 7
  else if ['t', 'h', 'o', 'u', 's', 'a', 'n', 'd'].isPrefixOf rest then w + 8
  else 0

/-- Matcher for `r'\$[\d,]+(?:\.\d+)?(?:\s*(?:million|billion|thousand))?'`. -/
def tryMoney (_ : Option Char) : List Char → Option Nat
  | '$' :: rest =>
    if (rest.takeWhile isDigitComma).length = 0 then none
    else
      let d := (rest.takeWhile isDigitComma).length
      let frac := matchOptFrac (rest.drop d)
      let scale := matchScale (rest.drop (d + frac))
      some (1 + d + frac + scale)
  | _ => none

/-- Matcher for `r'\d+(?:\.\d+)?%'`. -/
def tryPercent (_ : Option Char) (cs : List Char) : Option Nat :=
  let d := (cs.takeWhile Char.isDigit).length
  if d = 0 then none
  else
    match cs.drop d with
    | '.' :: rest2 =>
      let f := (rest2.takeWhile Char.isDigit).length
      if f > 0 then
        match rest2.drop f with
        | '%' :: _ => some (d + 1 + f + 1)
        | _ => none
      else none
    | '%' :: _ => some (d + 1)
    | _ => none

/-- `\w` (ASCII view, which is all these filings use). -/
def isWordChar (c : Char) : Bool := c.isAlphanum || c = '_'

/-- Exactly `k` digits at the head of `cs`. -/
def digitsPrefix (cs : List Char) (k : Nat) : Bool :=
  (cs.take k).length = k && (cs.take k).all Char.isDigit

/-- No word character follows (the trailing `\b` after a digit). -/
def boundaryAfter : List Char → Bool
  | [] => true
  | c :: _ => !isWordChar c

/-- One candidate shape `\d{d1}/\d{d2}/\d{y}\b` of the slash-date pattern. -/
def trySlashShape (cs : List Char) (d1 d2 y : Nat) : Option Nat :=
  if digitsPrefix cs d1 then
    match cs.drop d1 with
    | '/' :: rest2 =>
      if digitsPrefix rest2 d2 then
        match rest2.drop d2 with
        | '/' :: rest3 =>
          if digitsPrefix rest3 y && boundaryAfter (rest3.drop y) then
            some (d1 + 1 + d2 + 1 + y)
          else none
        | _ => none
      else none
    | _ => none
  else none

/-- Matcher for `r'\b\d{1,2}/\d{1,2}/\d{2,4}\b'`; the greedy quantifiers
backtrack through the shapes in this order. -/
def tryDateSlash (prev : Option Char) (cs : List Char) : Option Nat :=
  let boundaryOk := match prev with
    | some c => !isWordChar c
    | none => true
  if boundaryOk then
    [(2, 2, 4), (2, 2, 3), (2, 2, 2), (2, 1, 4), (2, 1, 3), (2, 1, 2),
     (1, 2, 4), (1, 2, 3), (1, 2, 2), (1, 1, 4), (1, 1, 3), (1, 1, 2)].foldl
      (fun acc s => acc <|> trySlashShape cs s.1 s.2.1 s.2.2) none
  else none

/-- The twelve month names of the spelled-out date pattern. -/
def MONTHS : List (List Char) :=
  [['J', 'a', 'n', 'u', 'a', 'r', 'y'], ['F', 'e', 'b', 'r', 'u', 'a', 'r', 'y'],
   ['M', 'a', 'r', 'c', 'h'], ['A', 'p', 'r', 'i', 'l'], ['M', 'a', 'y'],
   ['J', 'u', 'n', 'e'], ['J', 'u', 'l', 'y'],
   ['A', 'u', 'g', 'u', 's', 't'], ['S', 'e', 'p', 't', 'e', 'm', 'b', 'e', 'r'],
   ['O', 'c', 't', 'o', 'b', 'e', 'r'], ['N', 'o', 'v', 'e', 'm', 'b', 'e', 'r'],
   ['D', 'e', 'c', 'e', 'm', 'b', 'e', 'r']]

/-- The day/comma/whitespace/year tail `\d{k},?\s+\d{4}` of the spelled-out
date pattern. -/
def tryDayYear (cs : List Char) (k : Nat) : Option Nat :=
  if digitsPrefix cs k then
    let rest := cs.drop k
    let commaLen : Nat := match rest with | ',' :: _ => 1 | _ => 0
    let rest2 := rest.drop commaLen
    let w := (rest2.takeWhile Char.isWhitespace).length
    if w = 0 then none
    else if digitsPrefix (rest2.drop w) 4 then some (k + commaLen + w + 4)
    else none
  else none

/-- Matcher for
`r'\b(?:January|...|December)\s+\d{1,2},?\s+\d{4}'` (the month names are
mutually prefix-free, so at most one alternative applies). -/
def tryDateMonth (prev : Option Char) (cs : List Char) : Option Nat :=
  let boundaryOk := match prev with
    | some c => !isWordChar c
    | none => true
  if boundaryOk then
    match MONTHS.find? (fun m => m.isPrefixOf cs) with
    | none => none
    | some m =>
      let rest := cs.drop m.length
      let w := (rest.takeWhile Char.isWhitespace).length
      if w = 0 then none
      else
        match tryDayYear (rest.drop w) 2 <|> tryDayYear (rest.drop w) 1 with
        | none => none
        | some dayLen => some (m.length + w + dayLen)
  else none

/-- The metadata dictionary built by `extract_metadata` (insertion order of
`key_terms` follows the `financial_terms` list, as Python dicts preserve
insertion order). -/
structure Metadata where
  chunk_id : String
  chunk_index : Nat
  total_chunks : Nat
  sectionName : String
  word_count : Nat
  char_count : Nat
  sentence_count : Nat
  financial_figures_count : Nat
  dates_count : Nat
  percentages_count : Nat
  key_terms : List (String × Nat)
  risk_score : Nat
  ticker : String
  filing_date : String
  document_type : String
  text_preview : String
deriving DecidableEq, Repr

/-- `financial_terms` from `extract_metadata`. -/
def FINANCIAL_TERMS : List String :=
  ["revenue", "income", "earnings", "profit", "loss", "margin",
   "cash flow", "debt", "equity", "assets", "liabilities",
   "growth", "decline", "increase", "decrease"]

/-- `risk_terms` from `extract_metadata`. -/
def RISK_TERMS : List String :=
  ["risk", "uncertainty", "adverse", "negative", "decline", "loss"]

/-- `ImprovedSEC10KProcessor.extract_metadata`; `sentTokenize` stands for
NLTK's `sent_tokenize`. -/
def extract_metadata (sentTokenize : String → List String) (chunk : Chunk)
    (chunk_index total_chunks : Nat) (ticker filing_date : String) : Metadata :=
  let text := chunk.text
  { chunk_id := ticker ++ "_" ++ filing_date ++ "_" ++ toString chunk_index
    chunk_index := chunk_index
    total_chunks := total_chunks
    sectionName := chunk.sectionName
    word_count := chunk.word_count
    char_count := text.length
    sentence_count := (sentTokenize text).length
    financial_figures_count := scanCount tryMoney text.data
    dates_count := scanCount tryDateMonth text.data +
      scanCount tryDateSlash text.data
    percentages_count := scanCount tryPercent text.data
    key_terms := (FINANCIAL_TERMS.map
      (fun t => (t, pyCount (pyLower text) t))).filter (fun p => p.2 > 0)
    risk_score := (RISK_TERMS.map (fun t => pyCount (pyLower text) t)).sum
    ticker := ticker
    filing_date := filing_date
    document_type := "10-K"
    text_preview := if text.length > 200 then
        String.mk (text.data.take 200) ++ "..." else text }

/-- One entry of `all_chunks` in `process_10k`. -/
structure ChunkRecord where
  text : String
  metadata : Metadata
deriving DecidableEq, Repr

/-- The chunk-assembly loop of `process_10k` (lines 389–408): chunk every
section in order, attach metadata created with `total_chunks = 0`
(`# Total chunks updated later`), and number the chunks consecutively. -/
def buildChunkRecords (sentTokenize : String → List String)
    (sections : List (String × String)) (ticker filing_date : String) :
    List ChunkRecord :=
  (sections.foldl (fun (acc : List ChunkRecord × Nat) sec =>
    (createChunks (fun t => Except.ok (sentTokenize t)) sec.2 sec.1).foldl
      (fun (a : List ChunkRecord × Nat) c =>
        (a.1 ++ [⟨c.text, extract_metadata sentTokenize c a.2 0 ticker
          filing_date⟩], a.2 + 1)) acc) ([], 0)).1

/-- The rest of `process_10k`'s chunk handling (lines 410–413): backfill
`total_chunks` on every record with the final count. -/
def process10kRecords (sentTokenize : String → List String)
    (sections : List (String × String)) (ticker filing_date : String) :
    List ChunkRecord :=
  let all_chunks := buildChunkRecords sentTokenize sections ticker filing_date
  let total_chunks := all_chunks.length
  all_chunks.map (fun r =>
    { r with metadata := { r.metadata with total_chunks := total_chunks } })

/-! ## C4: metadata is written once and only total_chunks is backfilled -/

theorem buildChunkRecords_total_zero (sentTokenize : String → List String)
    (sections : List (String × String)) (ticker filing_date : String) :
    ∀ r ∈ buildChunkRecords sentTokenize sections ticker filing_date,
      r.metadata.total_chunks = 0 := by
  have inner : ∀ (cs : List Chunk) (acc : List ChunkRecord × Nat),
      (∀ r ∈ acc.1, r.metadata.total_chunks = 0) →
      ∀ r ∈ (cs.foldl (fun (a : List ChunkRecord × Nat) c =>
        (a.1 ++ [⟨c.text, extract_metadata sentTokenize c a.2 0 ticker
          filing_date⟩], a.2 + 1)) acc).1, r.metadata.total_chunks = 0 := by
    intro cs
    induction cs with
    | nil => intro acc hacc; exact hacc
    | cons c cs ih =>
      intro acc hacc
      simp only [List.foldl_cons]
      apply ih
      intro r hr
      rcases List.mem_append.mp hr with hr | hr
      · exact hacc r hr
      · rcases List.mem_singleton.mp hr with rfl
        rfl
  have outer : ∀ (l : List (String × String)) (acc : List ChunkRecord × Nat),
      (∀ r ∈ acc.1, r.metadata.total_chunks = 0) →
      ∀ r ∈ (l.foldl (fun (acc : List ChunkRecord × Nat) sec =>
        (createChunks (fun t => Except.ok (sentTokenize t)) sec.2 sec.1).foldl
          (fun (a : List ChunkRecord × Nat) c =>
            (a.1 ++ [⟨c.text, extract_metadata sentTokenize c a.2 0 ticker
              filing_date⟩], a.2 + 1)) acc) acc).1,
      r.metadata.total_chunks = 0 := by
    intro l
    induction l with
    | nil => intro acc hacc; exact hacc
    | cons sec l ih =>
      intro acc hacc
      simp only [List.foldl_cons]
      exact ih _ (inner _ acc hacc)
  exact outer sections ([], 0) (by simp)

/-- C4 (amended).  Every chunk record of `process_10k` keeps, at the end of
the run, exactly the metadata computed by `extract_metadata` at its creation,
except for the single field `total_chunks`, which is created as `0` and
backfilled once, after the full pass, with the final number of chunks. -/
theorem metadata_immutable_except_total (sentTokenize : String → List String)
    (sections : List (String × String)) (ticker filing_date : String) (i : Nat)
    (h : i < (process10kRecords sentTokenize sections ticker filing_date).length)
    (h' : i < (buildChunkRecords sentTokenize sections ticker filing_date).length) :
    ((process10kRecords sentTokenize sections ticker filing_date).get ⟨i, h⟩).text
      = ((buildChunkRecords sentTokenize sections ticker filing_date).get
          ⟨i, h'⟩).text
    ∧ ((process10kRecords sentTokenize sections ticker filing_date).get
        ⟨i, h⟩).metadata
      = { ((buildChunkRecords sentTokenize sections ticker filing_date).get
            ⟨i, h'⟩).metadata with
          total_chunks :=
            (buildChunkRecords sentTokenize sections ticker filing_date).length }
    ∧ ((buildChunkRecords sentTokenize sections ticker filing_date).get
        ⟨i, h'⟩).metadata.total_chunks = 0 := by
  have hmap : (process10kRecords sentTokenize sections ticker filing_date).get
      ⟨i, h⟩
      = (fun r => { r with metadata := { r.metadata with total_chunks :=
          (buildChunkRecords sentTokenize sections ticker filing_date).length } })
        ((buildChunkRecords sentTokenize sections ticker filing_date).get
          ⟨i, h'⟩) := by
    simp only [process10kRecords]
    rw [List.get_eq_getElem, List.get_eq_getElem, List.getElem_map]
  refine ⟨?_, ?_, ?_⟩
  · rw [hmap]
  · rw [hmap]
  · exact buildChunkRecords_total_zero sentTokenize sections ticker filing_date
      _ (List.get_mem _ _ h')

/-- C4 (counterexample).  On a one-section filing producing one chunk, the
record's metadata carries `total_chunks = 0` at creation and `total_chunks
= 1` at the end of `process_10k`: the field is mutated after creation. -/
theorem metadata_backfill_counterexample :
    ((buildChunkRecords (fun t => [t]) [("S", "Hello world.")] "T" "D").map
      (fun r => r.metadata.total_chunks) = [0])
    ∧ ((process10kRecords (fun t => [t]) [("S", "Hello world.")] "T" "D").map
      (fun r => r.metadata.total_chunks) = [1]) :=
  ⟨by decide, by decide⟩

/-- Witness for the amended C4 theorem on the same one-chunk run. -/
theorem metadata_immutable_witness :
    (0 < (process10kRecords (fun t => [t]) [("S", "Hello world.")] "T" "D").length)
    ∧ ((process10kRecords (fun t => [t]) [("S", "Hello world.")] "T" "D").get
        ⟨0, by decide⟩).metadata
      = { ((buildChunkRecords (fun t => [t]) [("S", "Hello world.")] "T" "D").get
            ⟨0, by decide⟩).metadata with
          total_chunks :=
            (buildChunkRecords (fun t => [t]) [("S", "Hello world.")] "T"
              "D").length } :=
  ⟨by decide,
    (metadata_immutable_except_total (fun t => [t]) [("S", "Hello world.")] "T" "D"
      0 (by decide) (by decide)).2.1⟩
